import Mathlib

/- Verification development for the incremental API harvesters of the
mohit/tools repository.  The definitions below are a shallow embedding of

  * src/music-history/scripts/lastfm_ingest.py
      (two concatenated variants: the JSONL-append variant, lines 1-300,
      and the parquet/state-file variant, lines 302-594),
  * src/music-history/main.py, and
  * src/strava-data-puller/strava_pull.py.

Machine integers are modelled as Int (Python ints are unbounded), JSON
rows as a fixed record of the fields the harvesters actually read, and
the month-partitioned destination directory as a function from
(year, month) to the list of rows stored in that partition file. -/

/-- Raw value of a JSON field that is expected to hold a unix timestamp:
in the source a field can be missing from the dict, present but not
parseable as an int (`int(...)` raises), or an int. -/
inductive UtsField
  | absent
  | malformed
  | val (n : Int)
  deriving DecidableEq

/-- A scrobble row as the harvesters see it: the flat `uts` field, the
nested `date.uts` field of raw API rows, and the text fields read by
`scrobble_identity` (lastfm_ingest.py) and `row_key` (main.py).
`track` is the flat field of rows this tool writes, `name` the raw API
field that `row_key` falls back to. -/
structure Row where
  uts : UtsField
  date_uts : UtsField
  artist : Option String
  track : Option String
  name : Option String
  album : Option String
  mbid : Option String
  deriving DecidableEq

/-- lastfm_ingest.py `parse_uts_from_row`: if the row has a `uts` key its
int-parse decides the result (None on parse failure, even when `date.uts`
is present); otherwise the nested `date.uts` is tried. -/
def parse_uts_from_row (r : Row) : Option Int :=
  match r.uts with
  | .val n => some n
  | .malformed => none
  | .absent =>
    match r.date_uts with
    | .val n => some n
    | _ => none

/-- main.py `extract_uts`: same two-level lookup as `parse_uts_from_row`
(flat `uts` first, then the raw API shape `date.uts`). -/
def extract_uts (r : Row) : Option Int :=
  match r.uts with
  | .val n => some n
  | .malformed => none
  | .absent =>
    match r.date_uts with
    | .val n => some n
    | _ => none

/-- The int value of a `uts` field that is known to hold an int (used
where the source calls `int(row["uts"])` on rows it has just normalized). -/
def utsVal (r : Row) : Int :=
  match r.uts with
  | .val n => n
  | _ => 0

/-- Proleptic-Gregorian civil date from days since the unix epoch
(Howard Hinnant's algorithm, with Lean's floor-convention Int division
playing the role of the era shift).  `datetime.fromtimestamp(uts, UTC)`
in the source computes exactly this on `uts // 86400`. -/
def civilFromDays (z0 : Int) : Int × Int × Int :=
  let z := z0 + 719468
  let era := z / 146097
  let doe := z % 146097
  let yoe := (doe - doe / 1460 + doe / 36524 - doe / 146096) / 365
  let y := yoe + era * 400
  let doy := doe - (365 * yoe + yoe / 4 - yoe / 100)
  let mp := (5 * doy + 2) / 153
  let d := doy - (153 * mp + 2) / 5 + 1
  let m := mp + (if mp < 10 then 3 else -9)
  (y + (if m ≤ 2 then 1 else 0), m, d)

/-- lastfm_ingest.py `month_partition_path` / main.py `month_file_for_uts`:
the destination partition of a record is the (year, month) of its event
timestamp in UTC.  We address partitions by that pair. -/
def month_partition_path (uts : Int) : Int × Int :=
  ((civilFromDays (uts / 86400)).1, (civilFromDays (uts / 86400)).2.1)

example : month_partition_path 0 = (1970, 1) := by decide
example : month_partition_path 1700000000 = (2023, 11) := by decide
example : month_partition_path 978307199 = (2000, 12) := by decide
example : month_partition_path 978307200 = (2001, 1) := by decide
example : month_partition_path (-86400) = (1969, 12) := by decide

/-- Partition address: the (year, month) pair of `month_partition_path`. -/
abbrev PKey := Int × Int

/-- Destination storage: for each month partition, the list of rows its
file currently holds (a missing file reads as the empty list, matching
the `if file_path.exists()` guards in both merge functions). -/
abbrev Store := PKey → List Row

/-- lastfm_ingest.py `scrobble_identity`: the IdentityKey of a row is the
raw 4-tuple `(row.get("uts"), row.get("artist"), row.get("track"),
row.get("album"))`. -/
def scrobble_identity (r : Row) : UtsField × Option String × Option String × Option String :=
  (r.uts, r.artist, r.track, r.album)

/-- IdentityKey type of `scrobble_identity`. -/
abbrev ScrobbleKey := UtsField × Option String × Option String × Option String

/-- The month partition a pending row is routed to (its `uts` has been
replaced by the parsed int before grouping, so `utsVal` is exact). -/
def rowMonth (r : Row) : PKey := month_partition_path (utsVal r)

/-- Rows that survive the grouping loop of `merge_into_monthly_jsonl`:
rows whose uts parses, with `row["uts"] = uts` written back. -/
def pendingRows (rows : List Row) : List Row :=
  rows.filterMap (fun r => (parse_uts_from_row r).map (fun n => { r with uts := UtsField.val n }))

/-- First-occurrence deduplication of a key list, as produced by
iterating a Python dict keyed on these values (insertion order). -/
def distinctAux {α : Type} [DecidableEq α] (seen : List α) : List α → List α
  | [] => []
  | p :: rest => if p ∈ seen then distinctAux seen rest else p :: distinctAux (p :: seen) rest

/-- Distinct elements of a list, first occurrence kept. -/
def distinctKeys {α : Type} [DecidableEq α] (l : List α) : List α := distinctAux [] l

/-- Identity keys of the rows already stored in a partition (the set
`existing_keys` that `merge_into_monthly_jsonl` loads from the file). -/
def keysOf (rs : List Row) : List ScrobbleKey := rs.map scrobble_identity

/-- The dedup loop of `merge_into_monthly_jsonl` (lines 253-260): walk the
pending rows, drop a row whose key is already in the seen set (counting
it), otherwise add its key to the set and keep it.  Returns
(unique_new_rows, deduped-count). -/
def dedup_new (ks : List ScrobbleKey) : List Row → List Row × Nat
  | [] => ([], 0)
  | r :: rest =>
    let k := scrobble_identity r
    if k ∈ ks then
      ((dedup_new ks rest).1, (dedup_new ks rest).2 + 1)
    else
      (r :: (dedup_new (k :: ks) rest).1, (dedup_new (k :: ks) rest).2)

/-- `unique_new_rows.sort(key=lambda r: int(r["uts"]))`: a stable sort by
the parsed uts (Python's sort is stable; so is insertion sort). -/
def sortByUts (rs : List Row) : List Row :=
  rs.insertionSort (fun a b => utsVal a ≤ utsVal b)

/-- Run summary returned by `merge_into_monthly_jsonl`. -/
structure MergeSummary where
  inserted : Nat
  deduped : Nat
  files_touched : Nat
  deriving DecidableEq

/-- Content of one partition file after `merge_into_monthly_jsonl`
processes it: existing rows stay in place, the deduplicated new rows are
appended sorted; when no new row survives the file is not touched
(`continue`). -/
def mergePartContent (existing pendingP : List Row) : List Row :=
  let uniq := (dedup_new (keysOf existing) pendingP).1
  if uniq.isEmpty then existing else existing ++ sortByUts uniq

/-- One iteration of the `for file_path, pending_rows in by_file.items()`
loop of `merge_into_monthly_jsonl`, threading the store and the counters. -/
def mergeStep (pending : List Row) (acc : Store × MergeSummary) (p : PKey) : Store × MergeSummary :=
  let st := acc.1
  let sm := acc.2
  let pendingP := pending.filter (fun r => rowMonth r = p)
  let existing := st p
  let uniq := (dedup_new (keysOf existing) pendingP).1
  let dups := (dedup_new (keysOf existing) pendingP).2
  let st' : Store :=
    if uniq.isEmpty then st else fun q => if q = p then existing ++ sortByUts uniq else st q
  (st', { inserted := sm.inserted + uniq.length, deduped := sm.deduped + dups,
          files_touched := sm.files_touched })

/-- lastfm_ingest.py `merge_into_monthly_jsonl` (lines 223-272): group the
incoming rows by month partition of their parsed uts (rows whose uts does
not parse are skipped), then for each affected partition load the
existing identity keys, drop incoming rows whose key is already present
(in the file or earlier in the batch), and append the survivors sorted by
uts.  `files_touched` is `len(by_file)`, the number of distinct partitions
among the parseable incoming rows.  Partition processing order follows
dict insertion order; partitions are disjoint, so the fold order only
matters for the order of counter updates, which commute. -/
def merge_into_monthly_jsonl (rows : List Row) (store : Store) : Store × MergeSummary :=
  if rows.isEmpty then (store, ⟨0, 0, 0⟩)
  else
    let pending := pendingRows rows
    let months := distinctKeys (pending.map rowMonth)
    months.foldl (mergeStep pending) (store, ⟨0, 0, months.length⟩)

/-- Number of rows with a given identity key in a partition's content. -/
def countKey (rs : List Row) (k : ScrobbleKey) : Nat :=
  (rs.filter (fun r => scrobble_identity r = k)).length

theorem mem_distinctAux {α : Type} [DecidableEq α] (l : List α) (seen : List α) (x : α) :
    x ∈ distinctAux seen l ↔ x ∈ l ∧ x ∉ seen := by
  induction l generalizing seen with
  | nil => simp [distinctAux]
  | cons p rest ih =>
    by_cases hp : p ∈ seen
    · simp only [distinctAux, if_pos hp, ih, List.mem_cons]
      constructor
      · rintro ⟨h, hs⟩; exact ⟨.inr h, hs⟩
      · rintro ⟨h | h, hs⟩
        · exact absurd (h ▸ hp) hs
        · exact ⟨h, hs⟩
    · simp only [distinctAux, if_neg hp, List.mem_cons, ih]
      constructor
      · rintro (rfl | ⟨h, hs⟩)
        · exact ⟨.inl rfl, hp⟩
        · exact ⟨.inr h, fun hx => hs (.inr hx)⟩
      · rintro ⟨h | h, hs⟩
        · exact .inl h
        · by_cases hx : x = p
          · exact .inl hx
          · exact .inr ⟨h, fun hc => by
              rcases hc with h1 | h1
              · exact hx h1
              · exact hs h1⟩

theorem nodup_distinctAux {α : Type} [DecidableEq α] (l : List α) (seen : List α) :
    (distinctAux seen l).Nodup := by
  induction l generalizing seen with
  | nil => simp [distinctAux]
  | cons p rest ih =>
    by_cases hp : p ∈ seen
    · simpa [distinctAux, if_pos hp] using ih seen
    · simp only [distinctAux, if_neg hp, List.nodup_cons]
      refine ⟨fun hc => ?_, ih _⟩
      exact ((mem_distinctAux _ _ _).mp hc).2 (List.mem_cons_self _ _)

theorem mem_distinctKeys {α : Type} [DecidableEq α] (l : List α) (x : α) :
    x ∈ distinctKeys l ↔ x ∈ l := by
  simp [distinctKeys, mem_distinctAux]

theorem nodup_distinctKeys {α : Type} [DecidableEq α] (l : List α) :
    (distinctKeys l).Nodup := nodup_distinctAux l []

theorem countKey_nil (k : ScrobbleKey) : countKey [] k = 0 := rfl

theorem countKey_cons (r : Row) (rs : List Row) (k : ScrobbleKey) :
    countKey (r :: rs) k = (if scrobble_identity r = k then 1 else 0) + countKey rs k := by
  by_cases h : scrobble_identity r = k
  · simp [countKey, List.filter_cons, h, Nat.add_comm]
  · simp [countKey, List.filter_cons, h]

theorem countKey_append (a b : List Row) (k : ScrobbleKey) :
    countKey (a ++ b) k = countKey a k + countKey b k := by
  simp [countKey, List.filter_append]

theorem countKey_sortByUts (l : List Row) (k : ScrobbleKey) :
    countKey (sortByUts l) k = countKey l k :=
  ((l.perm_insertionSort (fun a b => utsVal a ≤ utsVal b)).filter _).length_eq

theorem countKey_pos_iff_mem_keysOf (rs : List Row) (k : ScrobbleKey) :
    0 < countKey rs k ↔ k ∈ keysOf rs := by
  induction rs with
  | nil => simp [countKey_nil, keysOf]
  | cons r rest ih =>
    rw [countKey_cons]
    by_cases h : scrobble_identity r = k
    · simp [keysOf, h]
    · simp only [if_neg h, Nat.zero_add, ih, keysOf, List.map_cons, List.mem_cons]
      constructor
      · exact .inr
      · rintro (hh | hh)
        · exact absurd hh.symm h
        · exact hh

theorem dedup_new_count (l : List Row) (ks : List ScrobbleKey) (k : ScrobbleKey) :
    countKey (dedup_new ks l).1 k = if k ∈ ks then 0 else min 1 (countKey l k) := by
  induction l generalizing ks with
  | nil => simp [dedup_new, countKey_nil]
  | cons r rest ih =>
    by_cases hk : scrobble_identity r ∈ ks
    · rw [show (dedup_new ks (r :: rest)).1 = (dedup_new ks rest).1 by simp [dedup_new, hk]]
      rw [ih, countKey_cons]
      by_cases hek : scrobble_identity r = k
      · subst hek
        simp [hk]
      · simp [hek]
    · rw [show (dedup_new ks (r :: rest)).1
          = r :: (dedup_new (scrobble_identity r :: ks) rest).1 by simp [dedup_new, hk]]
      rw [countKey_cons, ih, countKey_cons]
      by_cases hek : scrobble_identity r = k
      · subst hek
        simp only [if_pos rfl, List.mem_cons, true_or, if_true, if_neg hk]
        omega
      · by_cases hmem : k ∈ ks
        · simp [hmem, hek]
        · have hnotin : k ∉ scrobble_identity r :: ks := by
            intro hc
            rcases List.mem_cons.mp hc with h1 | h1
            · exact hek h1.symm
            · exact hmem h1
          rw [if_neg hek, if_neg hnotin, if_neg hmem]
          simp

theorem dedup_new_fresh (l : List Row) (ks : List ScrobbleKey) :
    ∀ r ∈ (dedup_new ks l).1, scrobble_identity r ∉ ks := by
  induction l generalizing ks with
  | nil => simp [dedup_new]
  | cons r rest ih =>
    by_cases hk : scrobble_identity r ∈ ks
    · simpa only [dedup_new, if_pos hk] using ih ks
    · simp only [dedup_new, if_neg hk, List.mem_cons]
      rintro x (rfl | hx)
      · exact hk
      · intro hxk
        exact (ih _ x hx) (List.mem_cons.mpr (.inr hxk))

theorem mergeStep_frame (pending : List Row) (acc : Store × MergeSummary) (p q : PKey)
    (h : q ≠ p) : (mergeStep pending acc p).1 q = acc.1 q := by
  simp only [mergeStep]
  split
  · rfl
  · simp [if_neg h]

theorem foldl_mergeStep_frame (pending : List Row) (ms : List PKey)
    (acc : Store × MergeSummary) (p : PKey) (h : p ∉ ms) :
    (ms.foldl (mergeStep pending) acc).1 p = acc.1 p := by
  induction ms generalizing acc with
  | nil => rfl
  | cons m rest ih =>
    simp only [List.foldl_cons]
    rw [ih _ (fun hm => h (List.mem_cons.mpr (.inr hm)))]
    exact mergeStep_frame pending acc m p (fun he => h (List.mem_cons.mpr (.inl he)))

theorem mergeStep_at (pending : List Row) (st : Store) (sm : MergeSummary) (p : PKey) :
    (mergeStep pending (st, sm) p).1 p
      = mergePartContent (st p) (pending.filter (fun r => rowMonth r = p)) := by
  simp only [mergeStep, mergePartContent]
  split
  · rfl
  · simp

theorem foldl_mergeStep_update (pending : List Row) (ms : List PKey)
    (st : Store) (sm : MergeSummary) (p : PKey) (hnd : ms.Nodup) (hp : p ∈ ms) :
    (ms.foldl (mergeStep pending) (st, sm)).1 p
      = mergePartContent (st p) (pending.filter (fun r => rowMonth r = p)) := by
  induction ms generalizing st sm with
  | nil => cases hp
  | cons m rest ih =>
    rcases List.nodup_cons.mp hnd with ⟨hm, hrest⟩
    rcases List.mem_cons.mp hp with rfl | hp'
    · simp only [List.foldl_cons]
      have hfr := foldl_mergeStep_frame pending rest (mergeStep pending (st, sm) p) p hm
      rw [hfr, mergeStep_at]
    · have hne : p ≠ m := fun he => hm (he ▸ hp')
      simp only [List.foldl_cons]
      rcases hstep : mergeStep pending (st, sm) m with ⟨st₁, sm₁⟩
      have hst₁ : st₁ p = st p := by
        have := mergeStep_frame pending (st, sm) m p hne
        rw [hstep] at this
        exact this
      rw [ih st₁ sm₁ hrest hp', hst₁]

theorem countKey_mergePartContent (existing pendingP : List Row) (k : ScrobbleKey) :
    countKey (mergePartContent existing pendingP) k
      = countKey existing k
        + (if countKey existing k = 0 then min 1 (countKey pendingP k) else 0) := by
  have hded := dedup_new_count pendingP (keysOf existing) k
  by_cases hz : countKey existing k = 0
  · have hnot : k ∉ keysOf existing := by
      intro hmem
      have := (countKey_pos_iff_mem_keysOf existing k).mpr hmem
      omega
    rw [if_neg hnot] at hded
    rw [if_pos hz]
    simp only [mergePartContent]
    split
    · next hempty =>
      have h0 : countKey (dedup_new (keysOf existing) pendingP).1 k = 0 := by
        rw [List.isEmpty_iff.mp hempty, countKey_nil]
      rw [← hded, h0]
      omega
    · rw [countKey_append, countKey_sortByUts, hded]
  · have hmem : k ∈ keysOf existing := by
      rcases Nat.pos_of_ne_zero hz with h
      exact (countKey_pos_iff_mem_keysOf existing k).mp h
    rw [if_pos hmem] at hded
    rw [if_neg hz]
    simp only [mergePartContent]
    split
    · omega
    · rw [countKey_append, countKey_sortByUts, hded]

theorem merge_into_frame (rows : List Row) (store : Store) (p : PKey)
    (h : ∀ r ∈ pendingRows rows, rowMonth r ≠ p) :
    (merge_into_monthly_jsonl rows store).1 p = store p := by
  cases rows with
  | nil => rfl
  | cons a l =>
    simp only [merge_into_monthly_jsonl, List.isEmpty_cons, Bool.false_eq_true, if_false]
    apply foldl_mergeStep_frame
    intro hp
    rw [mem_distinctKeys] at hp
    rcases List.mem_map.mp hp with ⟨r, hr, hrp⟩
    exact h r hr hrp

theorem merge_into_countKey (rows : List Row) (store : Store) (p : PKey) (k : ScrobbleKey)
    (hne : rows ≠ []) :
    countKey ((merge_into_monthly_jsonl rows store).1 p) k
      = countKey (store p) k
        + (if countKey (store p) k = 0
            then min 1 (countKey ((pendingRows rows).filter (fun r => rowMonth r = p)) k)
            else 0) := by
  have hrows : rows.isEmpty = false := by
    cases rows
    · exact absurd rfl hne
    · rfl
  simp only [merge_into_monthly_jsonl, hrows, Bool.false_eq_true, if_false]
  by_cases hp : p ∈ distinctKeys ((pendingRows rows).map rowMonth)
  · rw [foldl_mergeStep_update _ _ _ _ _ (nodup_distinctKeys _) hp, countKey_mergePartContent]
  · rw [foldl_mergeStep_frame _ _ _ _ hp]
    have hfil : (pendingRows rows).filter (fun r => rowMonth r = p) = [] := by
      rw [List.filter_eq_nil_iff]
      intro r hr hrp
      apply hp
      rw [mem_distinctKeys]
      exact List.mem_map.mpr ⟨r, hr, by simpa using hrp⟩
    rw [hfil]
    simp [countKey_nil]

theorem mem_pendingRows_self (rows : List Row) (r : Row) (n : Int)
    (hr : r ∈ rows) (hu : r.uts = UtsField.val n) : r ∈ pendingRows rows := by
  unfold pendingRows
  apply List.mem_filterMap.mpr
  refine ⟨r, hr, ?_⟩
  have hp : parse_uts_from_row r = some n := by
    unfold parse_uts_from_row
    rw [hu]
  rw [hp, Option.map_some']
  have : { r with uts := UtsField.val n } = r := by
    cases r with
    | mk u d a t nm al m =>
      simp only at hu
      subst hu
      rfl
  rw [this]

theorem utsVal_of_val (r : Row) (n : Int) (hu : r.uts = UtsField.val n) : utsVal r = n := by
  unfold utsVal
  rw [hu]

/-- Concrete rows and store used by the closed witness theorems: two rows
with the same IdentityKey (uts, artist, track, album) but different mbid,
one row with a fresh key, and an initially empty destination. -/
def wRow1 : Row :=
  { uts := UtsField.val 0, date_uts := UtsField.absent, artist := some "a",
    track := some "t", name := none, album := none, mbid := some "x" }

/-- Second witness row: same identity key as `wRow1`, different content. -/
def wRow2 : Row :=
  { uts := UtsField.val 0, date_uts := UtsField.absent, artist := some "a",
    track := some "t", name := none, album := none, mbid := some "y" }

/-- Witness row with a fresh identity key (different track). -/
def wRow3 : Row :=
  { uts := UtsField.val 5, date_uts := UtsField.absent, artist := some "a",
    track := some "u", name := none, album := none, mbid := none }

/-- Initially empty destination store. -/
def wStore : Store := fun _ => []

/-- C1: if the destination partition holds at most one record with
IdentityKey k (a partition is a set of records unique per key), then after
merging a batch containing a fetched record r1 with key k, the partition
of r1's event month holds exactly one record with key k — this covers a
second record r2 with the same key arriving in the same batch (pages of
one run are merged as a single batch) and, by the second conjunct, r2
arriving in a later run's batch merged on top of the first run's result:
in both cases exactly one record with the key survives. -/
theorem c1_dedup_completeness (store : Store) (rows rows2 : List Row) (r1 r2 : Row) (n : Int)
    (hu : r1.uts = UtsField.val n)
    (h1 : r1 ∈ rows)
    (_hk : scrobble_identity r2 = scrobble_identity r1)
    (hstore : countKey (store (month_partition_path n)) (scrobble_identity r1) ≤ 1) :
    (r2 ∈ rows →
      countKey ((merge_into_monthly_jsonl rows store).1 (month_partition_path n))
        (scrobble_identity r1) = 1)
    ∧ (r2 ∈ rows2 →
      countKey ((merge_into_monthly_jsonl rows2
          (merge_into_monthly_jsonl rows store).1).1 (month_partition_path n))
        (scrobble_identity r1) = 1) := by
  have hne : rows ≠ [] := List.ne_nil_of_mem h1
  have hpend : r1 ∈ pendingRows rows := mem_pendingRows_self rows r1 n h1 hu
  have hrm : rowMonth r1 = month_partition_path n := by
    unfold rowMonth
    rw [utsVal_of_val r1 n hu]
  have hmemP : r1 ∈ (pendingRows rows).filter (fun r => rowMonth r = month_partition_path n) :=
    List.mem_filter.mpr ⟨hpend, by simp [hrm]⟩
  have hmemPk : r1 ∈ ((pendingRows rows).filter
      (fun r => rowMonth r = month_partition_path n)).filter
      (fun r => scrobble_identity r = scrobble_identity r1) :=
    List.mem_filter.mpr ⟨hmemP, by simp⟩
  have hposP : 0 < countKey ((pendingRows rows).filter
      (fun r => rowMonth r = month_partition_path n)) (scrobble_identity r1) :=
    List.length_pos.mpr (List.ne_nil_of_mem hmemPk)
  have hfirst : countKey ((merge_into_monthly_jsonl rows store).1 (month_partition_path n))
      (scrobble_identity r1) = 1 := by
    rw [merge_into_countKey rows store (month_partition_path n) (scrobble_identity r1) hne]
    by_cases hz : countKey (store (month_partition_path n)) (scrobble_identity r1) = 0
    · rw [hz, if_pos rfl]
      omega
    · rw [if_neg hz]
      omega
  refine ⟨fun _ => hfirst, fun h2 => ?_⟩
  have hne2 : rows2 ≠ [] := List.ne_nil_of_mem h2
  rw [merge_into_countKey rows2 _ (month_partition_path n) (scrobble_identity r1) hne2, hfirst]
  simp

/-- Witness for c1_dedup_completeness: concrete duplicate pair wRow1/wRow2
(same key, different mbid) merged into an empty store, both in one batch
and across two consecutive merges. -/
theorem c1_dedup_completeness_witness :
    countKey ((merge_into_monthly_jsonl [wRow1, wRow2] wStore).1 (month_partition_path 0))
      (scrobble_identity wRow1) = 1
    ∧ countKey ((merge_into_monthly_jsonl [wRow2]
        (merge_into_monthly_jsonl [wRow1] wStore).1).1 (month_partition_path 0))
      (scrobble_identity wRow1) = 1 := by
  refine ⟨?_, ?_⟩
  · exact (c1_dedup_completeness wStore [wRow1, wRow2] [] wRow1 wRow2 0
      (by decide) (by decide) (by decide) (by decide)).1 (by decide)
  · exact (c1_dedup_completeness wStore [wRow1] [wRow2] wRow1 wRow2 0
      (by decide) (by decide) (by decide) (by decide)).2 (by decide)

/-- main.py `_normalize_text` restricted to the string/None values our row
model carries: None becomes the empty string (the dict/list branches of
the source concern raw API shapes outside this model). -/
def normText (o : Option String) : String := o.getD ""

/-- Python's `row.get("track") or row.get("name")`: falls through to the
second operand when the first is None or the empty string (falsy). -/
def orElseText (a b : Option String) : Option String :=
  match a with
  | some s => if s = "" then b else some s
  | none => b

/-- Key type of main.py `row_key`. -/
abbrev RKey := Int × String × String × String

/-- main.py `row_key`: `(int(row["uts"]), _normalize_text(artist),
_normalize_text(track or name), _normalize_text(album))`.  Callers only
apply it to rows whose uts is an int (`utsVal` is exact there). -/
def row_key (r : Row) : RKey :=
  (utsVal r, normText r.artist, normText (orElseText r.track r.name), normText r.album)

/-- The `existing_for_key` row that `merge_raw_monthly_jsonl` builds from a
stored row before keying it: uts replaced by the parsed int, text fields
replaced by their normalized strings. -/
def normalizeExisting (e : Row) (n : Int) : Row :=
  { e with
    uts := UtsField.val n,
    artist := some (normText e.artist),
    track := some (normText (orElseText e.track e.name)),
    album := some (normText e.album) }

/-- Insertion-ordered dict on RKey, as an association list: overwriting an
existing key keeps its position (Python dict semantics), a new key is
appended at the end. -/
def dict_insert (d : List (RKey × Row)) (k : RKey) (v : Row) : List (RKey × Row) :=
  if d.any (fun kv => kv.1 = k) then d.map (fun kv => if kv.1 = k then (k, v) else kv)
  else d ++ [(k, v)]

/-- The `if month_file.exists(): for existing in iter_jsonl(month_file)`
loop of `merge_raw_monthly_jsonl`: rows without a parseable uts are
skipped, the rest are keyed by their normalized form but stored as the
original row. -/
def load_existing_into (d : List (RKey × Row)) : List Row → List (RKey × Row)
  | [] => d
  | e :: rest =>
    match extract_uts e with
    | none => load_existing_into d rest
    | some n => load_existing_into (dict_insert d (row_key (normalizeExisting e n)) e) rest

/-- The `for row in month_rows: merged[row_key(row)] = row` loop: incoming
rows overwrite any stored row with the same key (last write wins). -/
def insert_incoming (d : List (RKey × Row)) : List Row → List (RKey × Row)
  | [] => d
  | r :: rest => insert_incoming (dict_insert d (row_key r) r) rest

/-- Content of one month file after `merge_raw_monthly_jsonl` rebuilds it:
existing rows (keyed by normalized fields) then incoming rows poured into
one dict, whose values are sorted by uts and written out wholesale. -/
def merge_raw_partition (existing incoming : List Row) : List Row :=
  sortByUts ((insert_incoming (load_existing_into [] existing) incoming).map Prod.snd)

/-- One iteration of the `for month_file, month_rows in by_month.items()`
loop of `merge_raw_monthly_jsonl`: rebuild the month file as the
dict-merge of its current content with the incoming group. -/
def rawStep (rows : List Row) (st : Store) (p : PKey) : Store :=
  let incoming := rows.filter (fun r => rowMonth r = p)
  fun q => if q = p then merge_raw_partition (st p) incoming else st q

/-- main.py `merge_raw_monthly_jsonl` (lines 186-220): group incoming rows
by the month of their uts, and rebuild each touched month file as the
dict-merge of its current content with the incoming group (the result is
then written to a temp file and atomically renamed over the month file —
that write path is modelled separately as file operations for the
atomicity claim).  An empty incoming list returns immediately. -/
def merge_raw_monthly_jsonl (rows : List Row) (store : Store) : Store :=
  if rows.isEmpty then store
  else
    let months := distinctKeys (rows.map rowMonth)
    months.foldl (rawStep rows) store

/-- Keys of an association-list dict, in insertion order. -/
def dictKeys (d : List (RKey × Row)) : List RKey := d.map Prod.fst

/-- The normalized dedup key of a stored row, when its uts parses (the
key `merge_raw_monthly_jsonl` files it under). -/
def existingKey (e : Row) : Option RKey :=
  (extract_uts e).map (fun n => row_key (normalizeExisting e n))

theorem dict_any_iff_mem_keys (d : List (RKey × Row)) (k : RKey) :
    d.any (fun kv => kv.1 = k) = true ↔ k ∈ dictKeys d := by
  rw [List.any_eq_true]
  constructor
  · rintro ⟨kv, hkv, he⟩
    exact List.mem_map.mpr ⟨kv, hkv, by simpa using he⟩
  · rintro hk
    rcases List.mem_map.mp hk with ⟨kv, hkv, he⟩
    exact ⟨kv, hkv, by simpa using he⟩

theorem self_mem_dict_insert (d : List (RKey × Row)) (k : RKey) (v : Row) :
    (k, v) ∈ dict_insert d k v := by
  unfold dict_insert
  split
  · next h =>
    rcases List.any_eq_true.mp h with ⟨kv, hkv, he⟩
    apply List.mem_map.mpr
    exact ⟨kv, hkv, by simp [of_decide_eq_true he]⟩
  · exact List.mem_append.mpr (.inr (List.mem_singleton.mpr rfl))

theorem mem_dict_insert (d : List (RKey × Row)) (k : RKey) (v : Row) :
    ∀ kv ∈ dict_insert d k v, (kv ∈ d ∧ kv.1 ≠ k) ∨ kv = (k, v) := by
  intro kv hkv
  unfold dict_insert at hkv
  rcases hka : d.any (fun kv => kv.1 = k) with _ | _
  · rw [hka] at hkv
    simp only [Bool.false_eq_true, if_false] at hkv
    rcases List.mem_append.mp hkv with h | h
    · left
      refine ⟨h, fun he => ?_⟩
      have : d.any (fun kv => kv.1 = k) = true := List.any_eq_true.mpr ⟨kv, h, by simpa using he⟩
      rw [hka] at this
      cases this
    · right
      simpa using h
  · rw [hka] at hkv
    simp only [if_true] at hkv
    rcases List.mem_map.mp hkv with ⟨kv₀, hkv₀, he⟩
    by_cases h0 : kv₀.1 = k
    · right
      rw [← he]
      simp [h0]
    · left
      rw [← he]
      simp only [if_neg h0]
      exact ⟨hkv₀, h0⟩

theorem length_dict_insert (d : List (RKey × Row)) (k : RKey) (v : Row) :
    (dict_insert d k v).length = if k ∈ dictKeys d then d.length else d.length + 1 := by
  unfold dict_insert
  by_cases h : k ∈ dictKeys d
  · rw [if_pos ((dict_any_iff_mem_keys d k).mpr h), if_pos h, List.length_map]
  · have : d.any (fun kv => kv.1 = k) = false := by
      rcases ha : d.any (fun kv => kv.1 = k) with _ | _
      · rfl
      · exact absurd ((dict_any_iff_mem_keys d k).mp ha) h
    rw [this]
    simp [h]

theorem keys_dict_insert_present (d : List (RKey × Row)) (k : RKey) (v : Row)
    (h : k ∈ dictKeys d) : dictKeys (dict_insert d k v) = dictKeys d := by
  unfold dict_insert
  rw [if_pos ((dict_any_iff_mem_keys d k).mpr h)]
  unfold dictKeys
  rw [List.map_map]
  apply List.map_congr_left
  intro kv _
  by_cases h0 : kv.1 = k
  · simp [h0]
  · simp [h0]

theorem keys_dict_insert_new (d : List (RKey × Row)) (k : RKey) (v : Row)
    (h : k ∉ dictKeys d) : dictKeys (dict_insert d k v) = dictKeys d ++ [k] := by
  unfold dict_insert
  have : d.any (fun kv => kv.1 = k) = false := by
    rcases ha : d.any (fun kv => kv.1 = k) with _ | _
    · rfl
    · exact absurd ((dict_any_iff_mem_keys d k).mp ha) h
  rw [this]
  simp [dictKeys]

theorem load_existing_cons_none (d : List (RKey × Row)) (e : Row) (rest : List Row)
    (hex : extract_uts e = none) :
    load_existing_into d (e :: rest) = load_existing_into d rest := by
  simp only [load_existing_into, hex]

theorem load_existing_cons_some (d : List (RKey × Row)) (e : Row) (rest : List Row) (n : Int)
    (hex : extract_uts e = some n) :
    load_existing_into d (e :: rest)
      = load_existing_into (dict_insert d (row_key (normalizeExisting e n)) e) rest := by
  simp only [load_existing_into, hex]

theorem load_existing_pairs (es : List Row) (d : List (RKey × Row)) :
    ∀ kv ∈ load_existing_into d es, kv ∈ d ∨
      (kv.2 ∈ es ∧ ∃ n, extract_uts kv.2 = some n
        ∧ kv.1 = row_key (normalizeExisting kv.2 n)) := by
  induction es generalizing d with
  | nil => exact fun kv h => .inl h
  | cons e rest ih =>
    intro kv hkv
    rcases hex : extract_uts e with _ | n
    · rw [load_existing_cons_none d e rest hex] at hkv
      rcases ih d kv hkv with h | h
      · exact .inl h
      · exact .inr ⟨List.mem_cons.mpr (.inr h.1), h.2⟩
    · rw [load_existing_cons_some d e rest n hex] at hkv
      rcases ih _ kv hkv with h | h
      · rcases mem_dict_insert _ _ _ kv h with ⟨hd, _⟩ | heq
        · exact .inl hd
        · right
          rw [heq]
          exact ⟨List.mem_cons.mpr (.inl rfl), n, hex, rfl⟩
      · exact .inr ⟨List.mem_cons.mpr (.inr h.1), h.2⟩

theorem length_load_existing (es : List Row) (d : List (RKey × Row))
    (hall : ∀ e ∈ es, (extract_uts e).isSome)
    (hnd : (es.filterMap existingKey).Nodup)
    (hdisj : ∀ k ∈ es.filterMap existingKey, k ∉ dictKeys d) :
    (load_existing_into d es).length = d.length + es.length := by
  induction es generalizing d with
  | nil => simp [load_existing_into]
  | cons e rest ih =>
    rcases hex : extract_uts e with _ | n
    · exact absurd (hall e (.head _)) (by simp [hex])
    · have hkey : existingKey e = some (row_key (normalizeExisting e n)) := by
        unfold existingKey
        rw [hex]
        rfl
      have hfm : (e :: rest).filterMap existingKey
          = row_key (normalizeExisting e n) :: rest.filterMap existingKey := by
        simp [List.filterMap_cons, hkey]
      rw [hfm] at hnd hdisj
      have hk_not : row_key (normalizeExisting e n) ∉ dictKeys d :=
        hdisj _ (List.mem_cons.mpr (.inl rfl))
      have hlen : (dict_insert d (row_key (normalizeExisting e n)) e).length = d.length + 1 := by
        rw [length_dict_insert, if_neg hk_not]
      have hkeys : dictKeys (dict_insert d (row_key (normalizeExisting e n)) e)
          = dictKeys d ++ [row_key (normalizeExisting e n)] :=
        keys_dict_insert_new _ _ _ hk_not
      rw [load_existing_cons_some d e rest n hex]
      have hdisj' : ∀ k ∈ rest.filterMap existingKey,
          k ∉ dictKeys (dict_insert d (row_key (normalizeExisting e n)) e) := by
        intro k hk
        rw [hkeys]
        intro hc
        rcases List.mem_append.mp hc with hc | hc
        · exact hdisj k (List.mem_cons.mpr (.inr hk)) hc
        · have : k = row_key (normalizeExisting e n) := List.mem_singleton.mp hc
          exact (List.nodup_cons.mp hnd).1 (this ▸ hk)
      rw [ih _ (fun x hx => hall x (.tail _ hx)) (List.nodup_cons.mp hnd).2 hdisj', hlen]
      simp only [List.length_cons]
      omega

theorem keys_load_existing (es : List Row) (d : List (RKey × Row))
    (hall : ∀ e ∈ es, (extract_uts e).isSome)
    (hnd : (es.filterMap existingKey).Nodup)
    (hdisj : ∀ k ∈ es.filterMap existingKey, k ∉ dictKeys d) :
    dictKeys (load_existing_into d es) = dictKeys d ++ es.filterMap existingKey := by
  induction es generalizing d with
  | nil => simp [load_existing_into]
  | cons e rest ih =>
    rcases hex : extract_uts e with _ | n
    · exact absurd (hall e (.head _)) (by simp [hex])
    · have hkey : existingKey e = some (row_key (normalizeExisting e n)) := by
        unfold existingKey
        rw [hex]
        rfl
      have hfm : (e :: rest).filterMap existingKey
          = row_key (normalizeExisting e n) :: rest.filterMap existingKey := by
        simp [List.filterMap_cons, hkey]
      rw [hfm] at hnd hdisj
      have hk_not : row_key (normalizeExisting e n) ∉ dictKeys d :=
        hdisj _ (List.mem_cons.mpr (.inl rfl))
      have hkeys : dictKeys (dict_insert d (row_key (normalizeExisting e n)) e)
          = dictKeys d ++ [row_key (normalizeExisting e n)] :=
        keys_dict_insert_new _ _ _ hk_not
      rw [load_existing_cons_some d e rest n hex]
      have hdisj' : ∀ k ∈ rest.filterMap existingKey,
          k ∉ dictKeys (dict_insert d (row_key (normalizeExisting e n)) e) := by
        intro k hk
        rw [hkeys]
        intro hc
        rcases List.mem_append.mp hc with hc | hc
        · exact hdisj k (List.mem_cons.mpr (.inr hk)) hc
        · have : k = row_key (normalizeExisting e n) := List.mem_singleton.mp hc
          exact (List.nodup_cons.mp hnd).1 (this ▸ hk)
      rw [ih _ (fun x hx => hall x (.tail _ hx)) (List.nodup_cons.mp hnd).2 hdisj', hkeys]
      rw [hfm, List.append_assoc]
      rfl

theorem rawStep_frame (rows : List Row) (st : Store) (p q : PKey) (h : q ≠ p) :
    rawStep rows st p q = st q := by
  simp [rawStep, if_neg h]

theorem foldl_rawStep_frame (rows : List Row) (ms : List PKey) (st : Store) (p : PKey)
    (h : p ∉ ms) : (ms.foldl (rawStep rows) st) p = st p := by
  induction ms generalizing st with
  | nil => rfl
  | cons m rest ih =>
    simp only [List.foldl_cons]
    rw [ih _ (fun hm => h (List.mem_cons.mpr (.inr hm)))]
    exact rawStep_frame rows st m p (fun he => h (List.mem_cons.mpr (.inl he)))

theorem foldl_rawStep_update (rows : List Row) (ms : List PKey) (st : Store) (p : PKey)
    (hnd : ms.Nodup) (hp : p ∈ ms) :
    (ms.foldl (rawStep rows) st) p
      = merge_raw_partition (st p) (rows.filter (fun r => rowMonth r = p)) := by
  induction ms generalizing st with
  | nil => cases hp
  | cons m rest ih =>
    rcases List.nodup_cons.mp hnd with ⟨hm, hrest⟩
    rcases List.mem_cons.mp hp with rfl | hp'
    · simp only [List.foldl_cons]
      rw [foldl_rawStep_frame rows rest (rawStep rows st p) p hm]
      simp [rawStep]
    · have hne : p ≠ m := fun he => hm (he ▸ hp')
      simp only [List.foldl_cons]
      rw [ih (rawStep rows st m) hrest hp', rawStep_frame rows st m p hne]

theorem merge_raw_frame (rows : List Row) (store : Store) (p : PKey)
    (h : ∀ r ∈ rows, rowMonth r ≠ p) : merge_raw_monthly_jsonl rows store p = store p := by
  cases rows with
  | nil => rfl
  | cons a l =>
    simp only [merge_raw_monthly_jsonl, List.isEmpty_cons, Bool.false_eq_true, if_false]
    apply foldl_rawStep_frame
    intro hp
    rw [mem_distinctKeys] at hp
    rcases List.mem_map.mp hp with ⟨r, hr, hrp⟩
    exact h r hr hrp

theorem pendingRows_eq_self (rows : List Row)
    (h : ∀ r ∈ rows, ∃ n, r.uts = UtsField.val n) : pendingRows rows = rows := by
  induction rows with
  | nil => rfl
  | cons r rest ih =>
    rcases h r (.head _) with ⟨n, hn⟩
    have hp : parse_uts_from_row r = some n := by
      unfold parse_uts_from_row
      rw [hn]
    have hid : { r with uts := UtsField.val n } = r := by
      cases r with
      | mk u d a t nm al m =>
        simp only at hn
        subst hn
        rfl
    have ht : rest.filterMap
        (fun r => (parse_uts_from_row r).map (fun n => { r with uts := UtsField.val n }))
        = rest := by
      simpa [pendingRows] using ih (fun x hx => h x (.tail _ hx))
    simp only [pendingRows, List.filterMap_cons, hp, Option.map_some']
    rw [hid, ht]

theorem length_sortByUts (l : List Row) : (sortByUts l).length = l.length :=
  (l.perm_insertionSort _).length_eq

theorem mem_sortByUts (l : List Row) (r : Row) : r ∈ sortByUts l ↔ r ∈ l :=
  (l.perm_insertionSort _).mem_iff

/-- Concrete store holding wRow1 in the Jan-1970 partition. -/
def wStore1 : Store := fun q => if q = month_partition_path 0 then [wRow1] else []

/-- C6 counterexample: main.py `merge_raw_monthly_jsonl` does not apply
first-write-wins.  The partition holds wRow1; the incoming batch holds
wRow2, which has the same `row_key` (same uts, artist, track, album) but
different content (different mbid).  After merging, the partition holds
exactly the incoming wRow2 — the existing stored record was replaced, not
kept, so the incoming record was not discarded. -/
theorem c6_counterexample :
    merge_raw_monthly_jsonl [wRow2] wStore1 (month_partition_path 0) = [wRow2]
    ∧ wRow2 ≠ wRow1
    ∧ extract_uts wRow1 = some 0
    ∧ row_key (normalizeExisting wRow1 0) = row_key wRow2 := by
  refine ⟨by decide, by decide, by decide, by decide⟩

/-- C6 (amended): scripts/lastfm_ingest.py `merge_into_monthly_jsonl`
applies first-write-wins (the partition content is preserved as a prefix
and every appended row has a key absent from the partition, so a
key-colliding incoming record is discarded), whereas main.py
`merge_raw_monthly_jsonl` applies last-write-wins (the incoming record
survives and any stored record with the same normalized key is gone);
under both policies, merging a batch of one already-present key K1 plus
one fresh key K2 grows the partition by exactly one record. -/
theorem c6_amended_conflict_policy :
    (∀ (rows : List Row) (store : Store) (p : PKey),
      ∃ t, (merge_into_monthly_jsonl rows store).1 p = store p ++ t
        ∧ ∀ r ∈ t, scrobble_identity r ∉ keysOf (store p))
    ∧ (∀ (existing : List Row) (i : Row),
        i ∈ merge_raw_partition existing [i]
        ∧ ∀ x ∈ merge_raw_partition existing [i],
            x = i ∨ (x ∈ existing ∧ ∀ n, extract_uts x = some n →
              row_key (normalizeExisting x n) ≠ row_key i))
    ∧ (∀ (store : Store) (i1 i2 : Row) (n1 n2 : Int) (p : PKey),
        i1.uts = UtsField.val n1 → i2.uts = UtsField.val n2 →
        rowMonth i1 = p → rowMonth i2 = p →
        scrobble_identity i1 ∈ keysOf (store p) →
        scrobble_identity i2 ∉ keysOf (store p) →
        ((merge_into_monthly_jsonl [i1, i2] store).1 p).length = (store p).length + 1)
    ∧ (∀ (store : Store) (i1 i2 : Row) (p : PKey),
        (∀ e ∈ store p, (extract_uts e).isSome) →
        ((store p).filterMap existingKey).Nodup →
        row_key i1 ∈ (store p).filterMap existingKey →
        row_key i2 ∉ (store p).filterMap existingKey →
        rowMonth i1 = p → rowMonth i2 = p →
        (merge_raw_monthly_jsonl [i1, i2] store p).length = (store p).length + 1) := by
  refine ⟨?_, ?_, ?_, ?_⟩
  · intro rows store p
    cases rows with
    | nil => exact ⟨[], by simp [merge_into_monthly_jsonl], by simp⟩
    | cons a l =>
      simp only [merge_into_monthly_jsonl, List.isEmpty_cons, Bool.false_eq_true, if_false]
      by_cases hp : p ∈ distinctKeys ((pendingRows (a :: l)).map rowMonth)
      · rw [foldl_mergeStep_update _ _ _ _ _ (nodup_distinctKeys _) hp]
        simp only [mergePartContent]
        split
        · exact ⟨[], by simp, by simp⟩
        · refine ⟨sortByUts (dedup_new (keysOf (store p))
            ((pendingRows (a :: l)).filter (fun r => rowMonth r = p))).1, rfl, ?_⟩
          intro r hr
          exact dedup_new_fresh _ _ r ((mem_sortByUts _ r).mp hr)
      · rw [foldl_mergeStep_frame _ _ _ _ hp]
        exact ⟨[], by simp, by simp⟩
  · intro existing i
    have hins : insert_incoming (load_existing_into [] existing) [i]
        = dict_insert (load_existing_into [] existing) (row_key i) i := by
      simp [insert_incoming]
    constructor
    · unfold merge_raw_partition
      rw [hins, mem_sortByUts]
      exact List.mem_map.mpr ⟨(row_key i, i), self_mem_dict_insert _ _ _, rfl⟩
    · intro x hx
      unfold merge_raw_partition at hx
      rw [hins, mem_sortByUts] at hx
      rcases List.mem_map.mp hx with ⟨kv, hkv, hsnd⟩
      rcases mem_dict_insert _ _ _ kv hkv with ⟨hd, hne⟩ | heq
      · rcases load_existing_pairs existing [] kv hd with h | ⟨hmem, n₀, hex₀, hkey₀⟩
        · cases h
        · right
          rw [← hsnd]
          refine ⟨hmem, fun n hn hcontra => ?_⟩
          rw [hex₀] at hn
          have : n = n₀ := by
            have := Option.some.inj hn
            omega
          subst this
          exact hne (hkey₀ ▸ hcontra)
      · left
        rw [← hsnd, heq]
  · intro store i1 i2 n1 n2 p hu1 hu2 hm1 hm2 hk1 hk2
    have hpend : pendingRows [i1, i2] = [i1, i2] := by
      apply pendingRows_eq_self
      intro r hr
      rcases List.mem_cons.mp hr with rfl | hr
      · exact ⟨n1, hu1⟩
      · rcases List.mem_cons.mp hr with rfl | hr
        · exact ⟨n2, hu2⟩
        · cases hr
    have hmonths : distinctKeys (([i1, i2] : List Row).map rowMonth) = [p] := by
      simp [hm1, hm2, distinctKeys, distinctAux]
    simp only [merge_into_monthly_jsonl, List.isEmpty_cons, Bool.false_eq_true, if_false,
      hpend, hmonths]
    rw [foldl_mergeStep_update [i1, i2] [p] store _ p (by simp) (by simp)]
    have hfil : ([i1, i2] : List Row).filter (fun r => rowMonth r = p) = [i1, i2] := by
      simp [hm1, hm2]
    rw [hfil]
    have hded : (dedup_new (keysOf (store p)) [i1, i2]).1 = [i2] := by
      simp [dedup_new, hk1, hk2]
    simp only [mergePartContent, hded]
    simp [sortByUts, List.insertionSort, List.orderedInsert]
  · intro store i1 i2 p hall hnd hk1 hk2 hm1 hm2
    have hmonths : distinctKeys (([i1, i2] : List Row).map rowMonth) = [p] := by
      simp [hm1, hm2, distinctKeys, distinctAux]
    simp only [merge_raw_monthly_jsonl, List.isEmpty_cons, Bool.false_eq_true, if_false,
      hmonths]
    rw [foldl_rawStep_update [i1, i2] [p] store p (by simp) (by simp)]
    have hfil : ([i1, i2] : List Row).filter (fun r => rowMonth r = p) = [i1, i2] := by
      simp [hm1, hm2]
    rw [hfil]
    unfold merge_raw_partition
    rw [length_sortByUts, List.length_map]
    have hins : insert_incoming (load_existing_into [] (store p)) [i1, i2]
        = dict_insert (dict_insert (load_existing_into [] (store p)) (row_key i1) i1)
            (row_key i2) i2 := by
      simp [insert_incoming]
    rw [hins]
    have hd0len : (load_existing_into [] (store p)).length = (store p).length := by
      have := length_load_existing (store p) [] hall hnd (by simp [dictKeys])
      simpa using this
    have hd0keys : dictKeys (load_existing_into [] (store p))
        = (store p).filterMap existingKey := by
      have := keys_load_existing (store p) [] hall hnd (by simp [dictKeys])
      simpa [dictKeys] using this
    have hkeys1 : dictKeys (dict_insert (load_existing_into [] (store p)) (row_key i1) i1)
        = (store p).filterMap existingKey := by
      rw [keys_dict_insert_present _ _ _ (by rw [hd0keys]; exact hk1), hd0keys]
    rw [length_dict_insert, hkeys1, if_neg hk2, length_dict_insert, hd0keys, if_pos hk1,
      hd0len]

/-- Witness for c6_amended_conflict_policy at concrete inputs: wRow2
collides with the stored wRow1, wRow3 is fresh; both merge variants grow
the partition by exactly one row. -/
theorem c6_amended_conflict_policy_witness :
    (∃ t, (merge_into_monthly_jsonl [wRow3] wStore1).1 (month_partition_path 0)
        = wStore1 (month_partition_path 0) ++ t
      ∧ ∀ r ∈ t, scrobble_identity r ∉ keysOf (wStore1 (month_partition_path 0)))
    ∧ (wRow2 ∈ merge_raw_partition [wRow1] [wRow2]
      ∧ ∀ x ∈ merge_raw_partition [wRow1] [wRow2],
          x = wRow2 ∨ (x ∈ [wRow1] ∧ ∀ n, extract_uts x = some n →
            row_key (normalizeExisting x n) ≠ row_key wRow2))
    ∧ ((merge_into_monthly_jsonl [wRow2, wRow3] wStore1).1 (month_partition_path 0)).length
        = (wStore1 (month_partition_path 0)).length + 1
    ∧ (merge_raw_monthly_jsonl [wRow2, wRow3] wStore1 (month_partition_path 0)).length
        = (wStore1 (month_partition_path 0)).length + 1 := by
  refine ⟨?_, ?_, ?_, ?_⟩
  · exact c6_amended_conflict_policy.1 [wRow3] wStore1 (month_partition_path 0)
  · exact c6_amended_conflict_policy.2.1 [wRow1] wRow2
  · exact c6_amended_conflict_policy.2.2.1 wStore1 wRow2 wRow3 0 5 (month_partition_path 0)
      (by decide) (by decide) (by decide) (by decide) (by decide) (by decide)
  · exact c6_amended_conflict_policy.2.2.2 wStore1 wRow2 wRow3 (month_partition_path 0)
      (by decide) (by decide) (by decide) (by decide) (by decide) (by decide)

/-- C10: the merges only write to the month partitions of the incoming
rows' event timestamps: a partition whose month is not among the
(parseable) incoming rows is unchanged, and merging an empty list leaves
every partition unchanged, touches nothing, and reports zero inserted,
zero deduped, zero files touched (the summary exists only in the
lastfm_ingest.py variant; main.py's merge returns nothing). -/
theorem c10_merge_frame_effect :
    (∀ store : Store, merge_into_monthly_jsonl [] store
        = (store, { inserted := 0, deduped := 0, files_touched := 0 }))
    ∧ (∀ (rows : List Row) (store : Store) (p : PKey),
        (∀ r ∈ pendingRows rows, rowMonth r ≠ p) →
        (merge_into_monthly_jsonl rows store).1 p = store p)
    ∧ (∀ store : Store, merge_raw_monthly_jsonl [] store = store)
    ∧ (∀ (rows : List Row) (store : Store) (p : PKey),
        (∀ r ∈ rows, rowMonth r ≠ p) → merge_raw_monthly_jsonl rows store p = store p) := by
  refine ⟨fun store => rfl, ?_, fun store => rfl, ?_⟩
  · intro rows store p h
    exact merge_into_frame rows store p h
  · intro rows store p h
    exact merge_raw_frame rows store p h

/-- Witness for c10_merge_frame_effect: merging wRow3 (a Jan-1970 row)
leaves the Feb-2000 partition of wStore1 unchanged, and empty merges
change nothing. -/
theorem c10_merge_frame_effect_witness :
    merge_into_monthly_jsonl [] wStore1
        = (wStore1, { inserted := 0, deduped := 0, files_touched := 0 })
    ∧ (merge_into_monthly_jsonl [wRow3] wStore1).1 (2000, 2) = wStore1 (2000, 2)
    ∧ merge_raw_monthly_jsonl [] wStore1 = wStore1
    ∧ merge_raw_monthly_jsonl [wRow3] wStore1 (2000, 2) = wStore1 (2000, 2) := by
  refine ⟨?_, ?_, ?_, ?_⟩
  · exact c10_merge_frame_effect.1 wStore1
  · exact c10_merge_frame_effect.2.1 [wRow3] wStore1 (2000, 2) (by decide)
  · exact c10_merge_frame_effect.2.2.1 wStore1
  · exact c10_merge_frame_effect.2.2.2 [wRow3] wStore1 (2000, 2) (by decide)

/-- Fourth witness row: fresh identity key, uts 6. -/
def wRow4 : Row :=
  { uts := UtsField.val 6, date_uts := UtsField.absent, artist := some "b",
    track := some "v", name := none, album := none, mbid := none }

/-- File-level operations the two merge write paths perform on a month
partition: `merge_into_monthly_jsonl` appends one JSONL line per new row
to the partition file itself (`file_path.open("a")`, lines 267-270);
`merge_raw_monthly_jsonl` writes the whole merged list to a temp file and
renames it over the partition (`tmp_path.open("w")` /
`tmp_path.replace(month_file)`, lines 216-220). -/
inductive FileOp
  | appendLine (p : PKey) (r : Row)
  | writeTmp (p : PKey) (rs : List Row)
  | renameTmpOver (p : PKey)
  deriving DecidableEq

/-- Visible filesystem state: the partition files a reader lists, plus
the temp files (invisible to a partition reader). -/
structure Fs where
  partFile : Store
  tmpFile : PKey → List Row

/-- Effect of one file operation. -/
def applyFileOp (fs : Fs) : FileOp → Fs
  | .appendLine p r =>
    { fs with partFile := fun q => if q = p then fs.partFile q ++ [r] else fs.partFile q }
  | .writeTmp p rs =>
    { fs with tmpFile := fun q => if q = p then rs else fs.tmpFile q }
  | .renameTmpOver p =>
    { fs with partFile := fun q => if q = p then fs.tmpFile p else fs.partFile q }

/-- All intermediate filesystem states a concurrent reader can observe
while a sequence of file operations runs (before, between, after). -/
def fsSnapshots (fs : Fs) : List FileOp → List Fs
  | [] => [fs]
  | op :: ops => fs :: fsSnapshots (applyFileOp fs op) ops

/-- The record counts of partition p that a reader can observe during the
operation sequence. -/
def visibleCounts (fs : Fs) (ops : List FileOp) (p : PKey) : List Nat :=
  (fsSnapshots fs ops).map (fun s => (s.partFile p).length)

/-- Final state after a sequence of file operations. -/
def applyFileOps (fs : Fs) (ops : List FileOp) : Fs := ops.foldl applyFileOp fs

/-- The write loop of `merge_into_monthly_jsonl` for one partition: one
in-place append per surviving new row, in sorted order. -/
def merge_into_partition_ops (existing pendingP : List Row) (p : PKey) : List FileOp :=
  (sortByUts (dedup_new (keysOf existing) pendingP).1).map (FileOp.appendLine p)

/-- The write path of `merge_raw_monthly_jsonl` for one partition: write
the merged content to a temp file, then atomically rename it over the
partition file. -/
def merge_raw_partition_ops (existing incoming : List Row) (p : PKey) : List FileOp :=
  [FileOp.writeTmp p (merge_raw_partition existing incoming), FileOp.renameTmpOver p]

/-- Concrete filesystem for the witness/counterexample: partition
(1970, 1) holds wRow1; no temp files. -/
def wFs : Fs := { partFile := wStore1, tmpFile := fun _ => [] }

/-- C3 counterexample: the claim fails for `merge_into_monthly_jsonl`
(scripts/lastfm_ingest.py), which opens the partition file in append mode
and writes row by row instead of write-temp-then-rename.  Merging two new
rows into a partition holding one row exposes the intermediate count 2,
strictly between the pre-merge count 1 and the post-merge count 3. -/
theorem c3_counterexample :
    visibleCounts wFs
        (merge_into_partition_ops [wRow1] [wRow3, wRow4] (month_partition_path 0))
        (month_partition_path 0) = [1, 2, 3]
    ∧ (2 ∈ visibleCounts wFs
        (merge_into_partition_ops [wRow1] [wRow3, wRow4] (month_partition_path 0))
        (month_partition_path 0))
    ∧ (wFs.partFile (month_partition_path 0)).length = 1
    ∧ (mergePartContent [wRow1] [wRow3, wRow4]).length = 3
    ∧ 1 < 2 ∧ 2 < 3 := by
  refine ⟨by decide, by decide, by decide, by decide, by decide, by decide⟩

/-- C3 (amended): only main.py `merge_raw_monthly_jsonl` writes
temp-then-rename; its readers observe either the pre-merge or the
post-merge count, never a value strictly in between, and applying its
operations indeed installs the merged content.  scripts/lastfm_ingest.py
`merge_into_monthly_jsonl` instead appends in place (see
c3_counterexample), and its append operations realize the same final
content as the functional merge, but expose intermediate counts. -/
theorem c3_amended_atomic_swap :
    (∀ (existing incoming : List Row) (p : PKey) (fs : Fs), fs.partFile p = existing →
      ∀ c ∈ visibleCounts fs (merge_raw_partition_ops existing incoming p) p,
        c = existing.length ∨ c = (merge_raw_partition existing incoming).length)
    ∧ (∀ (existing incoming : List Row) (p : PKey) (fs : Fs), fs.partFile p = existing →
        (applyFileOps fs (merge_raw_partition_ops existing incoming p)).partFile p
          = merge_raw_partition existing incoming)
    ∧ (∀ (existing pendingP : List Row) (p : PKey) (fs : Fs), fs.partFile p = existing →
        (applyFileOps fs (merge_into_partition_ops existing pendingP p)).partFile p
          = mergePartContent existing pendingP) := by
  have happly : ∀ (rs : List Row) (p : PKey) (fs : Fs),
      (applyFileOps fs (rs.map (FileOp.appendLine p))).partFile p = fs.partFile p ++ rs := by
    intro rs
    induction rs with
    | nil => intro p fs; simp [applyFileOps]
    | cons r rest ih =>
      intro p fs
      simp only [List.map_cons, applyFileOps, List.foldl_cons]
      have := ih p (applyFileOp fs (FileOp.appendLine p r))
      simp only [applyFileOps] at this
      rw [this]
      simp [applyFileOp]
  refine ⟨?_, ?_, ?_⟩
  · intro existing incoming p fs hfs c hc
    simp only [merge_raw_partition_ops, visibleCounts, fsSnapshots, List.map_cons,
      List.map_nil, List.mem_cons, List.not_mem_nil, or_false] at hc
    rcases hc with hc | hc | hc
    · left
      rw [← hfs, hc]
    · left
      rw [← hfs, hc]
      simp [applyFileOp]
    · right
      rw [hc]
      simp [applyFileOp]
  · intro existing incoming p fs hfs
    simp [applyFileOps, merge_raw_partition_ops, applyFileOp]
  · intro existing pendingP p fs hfs
    rw [merge_into_partition_ops, happly, hfs]
    simp only [mergePartContent]
    split
    · next hempty =>
      rw [List.isEmpty_iff.mp hempty]
      simp [sortByUts, List.insertionSort]
    · rfl

/-- Witness for c3_amended_atomic_swap at concrete inputs: the atomic
swap over wFs exposes only counts 1 (pre) and 2 (post), and both op
sequences install the functional merge results. -/
theorem c3_amended_atomic_swap_witness :
    (2 = ([wRow1] : List Row).length ∨ 2 = (merge_raw_partition [wRow1] [wRow3]).length)
    ∧ (applyFileOps wFs
        (merge_raw_partition_ops [wRow1] [wRow3] (month_partition_path 0))).partFile
        (month_partition_path 0) = merge_raw_partition [wRow1] [wRow3]
    ∧ (applyFileOps wFs
        (merge_into_partition_ops [wRow1] [wRow3] (month_partition_path 0))).partFile
        (month_partition_path 0) = mergePartContent [wRow1] [wRow3] := by
  refine ⟨?_, ?_, ?_⟩
  · exact c3_amended_atomic_swap.1 [wRow1] [wRow3] (month_partition_path 0) wFs
      (by decide) 2 (by decide)
  · exact c3_amended_atomic_swap.2.1 [wRow1] [wRow3] (month_partition_path 0) wFs (by decide)
  · exact c3_amended_atomic_swap.2.2 [wRow1] [wRow3] (month_partition_path 0) wFs (by decide)

/-- lastfm_ingest.py line 413: `max([v for v in [state_uts, curated_uts]
if v is not None], default=None)`. -/
def latestKnown (state_uts curated_uts : Option Int) : Option Int :=
  match state_uts, curated_uts with
  | none, none => none
  | some a, none => some a
  | none, some b => some b
  | some a, some b => some (max a b)

/-- lastfm_ingest.py `resolve_from_uts` (lines 396-419): full_refetch
forces 0; an explicit --from-uts v yields v + 1 (the API's `from` is
inclusive, +1 keeps the CLI's strict-after semantics); an explicit
--since yields its parsed uts unchanged (`cli_since_uts` is the value
`parse_since_to_uts` returns — string parsing is orthogonal to the
precedence being modelled); otherwise the latest known watermark from the
state file and the curated parquet files, advanced by one second; if none
exists, bootstrap to now minus 30 days. -/
def resolve_from_uts (cli_from_uts cli_since_uts : Option Int) (full_refetch : Bool)
    (state_uts curated_uts : Option Int) (now : Int) : Int :=
  if full_refetch then 0
  else
    match cli_from_uts with
    | some v => v + 1
    | none =>
      match cli_since_uts with
      | some w => w
      | none =>
        match latestKnown state_uts curated_uts with
        | none => now - 30 * 24 * 3600
        | some latest => latest + 1

/-- main.py `determine_from_uts` (lines 122-132): the latest uts found in
the raw JSONL files plus one, else the state-file value plus one, else
None — and None means a full-history fetch (`fetch_page` omits the `from`
parameter). -/
def determine_from_uts (raw_last state_last : Option Int) : Option Int :=
  match raw_last with
  | some r => some (r + 1)
  | none =>
    match state_last with
    | some s => some (s + 1)
    | none => none

/-- C4 counterexample: main.py `determine_from_uts` with no raw files and
no state bootstraps to None — a full-history fetch — not to a now − 30
days lookback window as the claim states (for any `now`, in particular
1700000000). -/
theorem c4_counterexample :
    determine_from_uts none none = none
    ∧ (none : Option Int) ≠ some (1700000000 - 30 * 24 * 3600) := by
  exact ⟨rfl, by decide⟩

/-- C4 (amended): in scripts/lastfm_ingest.py `resolve_from_uts` the
precedence is: --full-refetch forces 0 (beating even an explicit
--from-uts); otherwise an explicit --from-uts v wins and resolves to
v + 1; otherwise an explicit --since resolves to its own uts (no +1);
otherwise the persisted watermark (max of state file and curated data)
advanced by exactly one; otherwise the bootstrap now − 30 days.  main.py
`determine_from_uts` takes no explicit value at all: it advances the raw
or state watermark by one, and with neither present it returns None,
which triggers a full-history fetch rather than a 30-day lookback. -/
theorem c4_amended_cursor_precedence :
    (∀ (cf cs st cu : Option Int) (now : Int), resolve_from_uts cf cs true st cu now = 0)
    ∧ (∀ (v : Int) (cs st cu : Option Int) (now : Int),
        resolve_from_uts (some v) cs false st cu now = v + 1)
    ∧ (∀ (w : Int) (st cu : Option Int) (now : Int),
        resolve_from_uts none (some w) false st cu now = w)
    ∧ (∀ a b now : Int, resolve_from_uts none none false (some a) (some b) now = max a b + 1)
    ∧ (∀ a now : Int, resolve_from_uts none none false (some a) none now = a + 1)
    ∧ (∀ b now : Int, resolve_from_uts none none false none (some b) now = b + 1)
    ∧ (∀ now : Int, resolve_from_uts none none false none none now = now - 30 * 24 * 3600)
    ∧ (∀ (r : Int) (s : Option Int), determine_from_uts (some r) s = some (r + 1))
    ∧ (∀ s : Int, determine_from_uts none (some s) = some (s + 1))
    ∧ determine_from_uts none none = none := by
  exact ⟨fun _ _ _ _ _ => rfl, fun _ _ _ _ _ => rfl, fun _ _ _ _ => rfl, fun _ _ _ => rfl,
    fun _ _ => rfl, fun _ _ => rfl, fun _ => rfl, fun _ _ => rfl, fun _ => rfl, rfl⟩

/-- Largest element of a list of uts values (`df["uts"].max()`); 0 on the
empty list, which the callers never hit. -/
def maxUtsList : List Int → Int
  | [] => 0
  | x :: xs => xs.foldl max x

/-- `pd.DataFrame(all_rows).drop_duplicates(subset=["uts", "artist",
"track", "album"])`: keep the first row per key — the same key tuple as
`scrobble_identity`, so the merge dedup loop with an empty seen set
computes it. -/
def drop_duplicates (rows : List Row) : List Row := (dedup_new [] rows).1

/-- The state-file update performed by lastfm_ingest.py `run` (lines
577-588): when the page loop accumulated no rows the function returns
before writing anything, otherwise `save_last_uts` unconditionally writes
the max uts of the deduplicated batch. -/
def run_end_state (prior : Option Int) (all_rows : List Row) : Option Int :=
  if all_rows.isEmpty then prior
  else some (maxUtsList ((drop_duplicates all_rows).map utsVal))

theorem le_foldl_max (l : List Int) : ∀ a b : Int, (b = a ∨ b ∈ l) → b ≤ l.foldl max a := by
  induction l with
  | nil =>
    rintro a b (rfl | h)
    · simp
    · cases h
  | cons x xs ih =>
    rintro a b (rfl | h)
    · calc b ≤ max b x := le_max_left _ _
        _ ≤ xs.foldl max (max b x) := ih (max b x) _ (.inl rfl)
        _ = (x :: xs).foldl max b := rfl
    · rcases List.mem_cons.mp h with rfl | h
      · calc b ≤ max a b := le_max_right _ _
          _ ≤ xs.foldl max (max a b) := ih (max a b) _ (.inl rfl)
          _ = (b :: xs).foldl max a := rfl
      · exact ih (max a x) b (.inr h)

theorem le_maxUtsList (l : List Int) (x : Int) (hx : x ∈ l) : x ≤ maxUtsList l := by
  cases l with
  | nil => cases hx
  | cons y ys =>
    rcases List.mem_cons.mp hx with rfl | h
    · exact le_foldl_max ys x x (.inl rfl)
    · exact le_foldl_max ys y x (.inr h)

/-- Concrete row at uts 11 for the C5 counterexample. -/
def wRow5 : Row :=
  { uts := UtsField.val 11, date_uts := UtsField.absent, artist := some "a",
    track := some "t", name := none, album := none, mbid := none }

/-- C5 counterexample: the persisted watermark moves backward.  The state
file holds 1000; the caller passes an explicit --from-uts 10, which
resolves to 11 (short-circuiting the persisted watermark); the API
returns one row at uts 11 (consistent with the inclusive `from` filter);
the run then unconditionally writes max uts = 11 < 1000 over the old
watermark. -/
theorem c5_counterexample :
    resolve_from_uts (some 10) none false (some 1000) none 0 = 11
    ∧ utsVal wRow5 ≥ resolve_from_uts (some 10) none false (some 1000) none 0
    ∧ run_end_state (some 1000) [wRow5] = some 11
    ∧ (11 : Int) < 1000 := by
  refine ⟨rfl, by decide, by decide, by decide⟩

/-- C5 (amended): when the start cursor is resolved from the persisted
state (no --full-refetch, no explicit --from-uts or --since), every
fetched row respects the resolved inclusive `from` filter, and at least
one row is fetched, the watermark written at run end strictly exceeds the
prior persisted watermark; with no rows fetched the state is untouched.
An explicit earlier start (c5_counterexample), or a state file ahead of
the curated data under main.py's raw-first preference, can move the
persisted watermark backward. -/
theorem c5_amended_watermark_monotone (p : Int) (curated : Option Int) (now : Int)
    (rows : List Row) (hne : rows ≠ [])
    (hge : ∀ r ∈ rows, utsVal r ≥ resolve_from_uts none none false (some p) curated now) :
    ∃ m, run_end_state (some p) rows = some m ∧ p < m := by
  have hresolve : resolve_from_uts none none false (some p) curated now ≥ p + 1 := by
    cases curated with
    | none => simp [resolve_from_uts, latestKnown]
    | some b =>
      simp only [resolve_from_uts, latestKnown, Bool.false_eq_true, if_false]
      have := le_max_left p b
      omega
  cases rows with
  | nil => exact absurd rfl hne
  | cons r rest =>
    refine ⟨maxUtsList ((drop_duplicates (r :: rest)).map utsVal), by simp [run_end_state], ?_⟩
    have hdd : drop_duplicates (r :: rest) = r :: (dedup_new [scrobble_identity r] rest).1 := by
      simp [drop_duplicates, dedup_new]
    have hmem : utsVal r ∈ (drop_duplicates (r :: rest)).map utsVal := by
      rw [hdd]
      exact List.mem_map.mpr ⟨r, List.mem_cons_self _ _, rfl⟩
    have hle := le_maxUtsList _ _ hmem
    have hger := hge r (List.mem_cons_self _ _)
    omega

/-- Witness for c5_amended_watermark_monotone: prior watermark 0, no
curated data, one fetched row at uts 11 ≥ resolved cursor 1. -/
theorem c5_amended_watermark_monotone_witness :
    ∃ m, run_end_state (some 0) [wRow5] = some m ∧ 0 < m :=
  c5_amended_watermark_monotone 0 none 0 [wRow5] (by decide) (by decide)

/-- strava_pull.py `StravaRateLimiter` (lines 42-88): two timestamp
queues (front = oldest) and the effective limits after the safety margin.
The clock is modelled in integer seconds. -/
structure StravaRateLimiter where
  short_window_limit : Int
  short_window_seconds : Int
  daily_limit : Int
  short_window_requests : List Int
  daily_requests : List Int
  deriving DecidableEq

/-- `StravaRateLimiter.__init__`: both effective limits are the
configured limits minus the safety margin, floored at 1; queues start
empty. -/
def StravaRateLimiter.init (short_window_limit short_window_seconds daily_limit
    safety_margin : Int) : StravaRateLimiter :=
  { short_window_limit := max 1 (short_window_limit - safety_margin)
    short_window_seconds := short_window_seconds
    daily_limit := max 1 (daily_limit - safety_margin)
    short_window_requests := []
    daily_requests := [] }

/-- The `while q and now - q[0] >= window: q.popleft()` loop of
`_prune`: drop entries from the front while they are at least one window
old. -/
def pruneQueue (window now : Int) (q : List Int) : List Int :=
  q.dropWhile (fun t => now - t ≥ window)

/-- strava_pull.py `StravaRateLimiter._prune`. -/
def StravaRateLimiter.prune (s : StravaRateLimiter) (now : Int) : StravaRateLimiter :=
  { s with
    short_window_requests := pruneQueue s.short_window_seconds now s.short_window_requests,
    daily_requests := pruneQueue (24 * 60 * 60) now s.daily_requests }

/-- Result of `wait_for_slot`: a slot was granted (with the pruned
state), the daily quota check raised SystemExit, or the model ran out of
clock readings (the real loop would keep spinning). -/
inductive SlotResult
  | ok (s : StravaRateLimiter)
  | quotaExhausted
  | outOfFuel (s : StravaRateLimiter)
  deriving DecidableEq

/-- strava_pull.py `StravaRateLimiter.wait_for_slot` (lines 64-83), one
clock reading per iteration of its `while True` loop: prune at `now`;
raise if the daily queue is at the daily limit; return if the short
queue is below the short limit; otherwise sleep until one second past
the expiry of the oldest short-window entry and recheck.  Returns the
sleeps performed and the result. -/
def wait_for_slot (s : StravaRateLimiter) : List Int → List Int × SlotResult
  | [] => ([], SlotResult.outOfFuel s)
  | now :: rest =>
    let s' := s.prune now
    if (s'.daily_requests.length : Int) ≥ s'.daily_limit then ([], SlotResult.quotaExhausted)
    else if (s'.short_window_requests.length : Int) < s'.short_window_limit then
      ([], SlotResult.ok s')
    else
      let sleep_for := s'.short_window_requests.headD 0 + s'.short_window_seconds - now + 1
      let sleeps := if sleep_for > 0 then [sleep_for] else []
      let rest' := wait_for_slot s' rest
      (sleeps ++ rest'.1, rest'.2)

/-- strava_pull.py `StravaRateLimiter.note_request`: append the current
time to both queues. -/
def note_request (s : StravaRateLimiter) (now : Int) : StravaRateLimiter :=
  { s with
    short_window_requests := s.short_window_requests ++ [now],
    daily_requests := s.daily_requests ++ [now] }

/-- Outcome of one `requests.get` in `request_json`: an HTTP status, or
a network-level exception (Timeout/ConnectionError), which `request_json`
does not catch. -/
inductive HttpResp
  | status (code : Nat)
  | netError
  deriving DecidableEq

/-- Observable events of `request_json`: limiter sleeps, the HTTP call
itself, a network error raised by the call, and the 429 backoff sleep. -/
inductive ReqEvent
  | limiterSleep (secs : Int)
  | http (code : Nat)
  | netErr
  | backoffSleep (secs : Int)
  deriving DecidableEq

/-- Outcome of `request_json`. -/
inductive ReqOutcome
  | ok (attempt : Nat)
  | quotaExhausted
  | httpError (code : Nat)
  | netErrorRaised
  | retriesExhausted
  | stuck
  deriving DecidableEq

/-- strava_pull.py `MAX_RETRIES = 5`. -/
def MAX_RETRIES : Nat := 5

/-- strava_pull.py `BASE_DELAY = 15` seconds. -/
def BASE_DELAY : Int := 15

/-- The `for attempt in range(MAX_RETRIES)` loop of strava_pull.py
`request_json` (lines 257-294): before each attempt acquire a limiter
slot (quota exhaustion propagates as SystemExit, before any HTTP call of
this attempt); issue the request; note it in the limiter; on 429 sleep
`BASE_DELAY * 2 ** attempt` and continue; on any other status >= 400
raise immediately (`raise_for_status`, no retry); otherwise return the
payload.  Falling out of the loop raises SystemExit (retries exhausted).
A network exception from `requests.get` is not caught and propagates on
the spot.  `slotClocks`/`noteClock` supply the `time.time()` readings per
attempt. -/
def request_json_loop (slotClocks : Nat → List Int) (noteClock : Nat → Int)
    (responses : Nat → HttpResp) :
    Option StravaRateLimiter → Nat → Nat → List ReqEvent × ReqOutcome
  | _, _, 0 => ([], ReqOutcome.retriesExhausted)
  | none, attempt, fuel + 1 =>
    match responses attempt with
    | HttpResp.netError => ([ReqEvent.netErr], ReqOutcome.netErrorRaised)
    | HttpResp.status code =>
      if code = 429 then
        let delay := BASE_DELAY * 2 ^ attempt
        let rest := request_json_loop slotClocks noteClock responses none (attempt + 1) fuel
        (ReqEvent.http code :: ReqEvent.backoffSleep delay :: rest.1, rest.2)
      else if code ≥ 400 then ([ReqEvent.http code], ReqOutcome.httpError code)
      else ([ReqEvent.http code], ReqOutcome.ok attempt)
  | some s, attempt, fuel + 1 =>
    match wait_for_slot s (slotClocks attempt) with
    | (sl, SlotResult.quotaExhausted) =>
      (sl.map ReqEvent.limiterSleep, ReqOutcome.quotaExhausted)
    | (sl, SlotResult.outOfFuel _) => (sl.map ReqEvent.limiterSleep, ReqOutcome.stuck)
    | (sl, SlotResult.ok s') =>
      let pre := sl.map ReqEvent.limiterSleep
      match responses attempt with
      | HttpResp.netError => (pre ++ [ReqEvent.netErr], ReqOutcome.netErrorRaised)
      | HttpResp.status code =>
        let s'' := note_request s' (noteClock attempt)
        if code = 429 then
          let delay := BASE_DELAY * 2 ^ attempt
          let rest := request_json_loop slotClocks noteClock responses (some s'')
            (attempt + 1) fuel
          (pre ++ ReqEvent.http code :: ReqEvent.backoffSleep delay :: rest.1, rest.2)
        else if code ≥ 400 then (pre ++ [ReqEvent.http code], ReqOutcome.httpError code)
        else (pre ++ [ReqEvent.http code], ReqOutcome.ok attempt)

/-- strava_pull.py `request_json` (lines 257-294). -/
def request_json (lim : Option StravaRateLimiter) (slotClocks : Nat → List Int)
    (noteClock : Nat → Int) (responses : Nat → HttpResp) : List ReqEvent × ReqOutcome :=
  request_json_loop slotClocks noteClock responses lim 0 MAX_RETRIES

/-- Outcome of one attempt inside lastfm_ingest.py
`fetch_page_with_retries`: the caught exception classes (requests.Timeout,
requests.ConnectionError, requests.HTTPError — raised by
`raise_for_status` for any status >= 400 — and requests.JSONDecodeError)
or a decoded payload (status < 400, JSON ok; the payload itself is
abstracted to a tag). -/
inductive LfmResp
  | timeout
  | connError
  | httpErr (code : Nat)
  | jsonError
  | okPayload (v : Nat)
  deriving DecidableEq

/-- Outcome of `fetch_page_with_retries`: the payload, or the terminal
RuntimeError after the last attempt. -/
inductive FetchOutcome
  | ok (v : Nat)
  | exhausted
  deriving DecidableEq

/-- The `for attempt in range(1, max_retries + 1)` loop of
lastfm_ingest.py `fetch_page_with_retries` (lines 447-488): every caught
exception (timeout, connection error, HTTP error of any status >= 400,
JSON decode failure) is retried after a backoff sleep of
`backoff_base * 2 ** (attempt - 1) + jitter`, except on the final attempt
where the loop breaks and a RuntimeError is raised.  Returns the backoff
sleeps performed and the outcome. -/
def fetch_page_go (backoff_base : Int) (jitter : Nat → Int) (responses : Nat → LfmResp) :
    Nat → Nat → List Int × FetchOutcome
  | _, 0 => ([], FetchOutcome.exhausted)
  | attempt, fuel + 1 =>
    match responses attempt with
    | LfmResp.okPayload v => ([], FetchOutcome.ok v)
    | _ =>
      if fuel = 0 then ([], FetchOutcome.exhausted)
      else
        let d := backoff_base * 2 ^ (attempt - 1) + jitter attempt
        let rest := fetch_page_go backoff_base jitter responses (attempt + 1) fuel
        (d :: rest.1, rest.2)

/-- lastfm_ingest.py `fetch_page_with_retries` (lines 447-488), with the
attempt counter starting at 1 and `max_retries` attempts in total. -/
def fetch_page_with_retries (max_retries : Nat) (backoff_base : Int) (jitter : Nat → Int)
    (responses : Nat → LfmResp) : List Int × FetchOutcome :=
  fetch_page_go backoff_base jitter responses 1 max_retries

/-- C7: if the pruned daily queue is already at the effective daily
limit when a slot is requested, `wait_for_slot` raises the distinct
quota-exhausted failure immediately — no sleep is performed — and
`request_json` then propagates it without ever issuing an HTTP call;
whereas when only the short window is full it sleeps exactly until one
second past the expiry of the oldest short-window entry and then
rechecks instead of failing. -/
theorem c7_quota_fail_fast :
    (∀ (s : StravaRateLimiter) (now : Int) (rest : List Int),
      ((s.prune now).daily_requests.length : Int) ≥ s.daily_limit →
      wait_for_slot s (now :: rest) = ([], SlotResult.quotaExhausted))
    ∧ (∀ (s : StravaRateLimiter) (now : Int) (rest : List Int),
      ((s.prune now).daily_requests.length : Int) < s.daily_limit →
      ((s.prune now).short_window_requests.length : Int) ≥ s.short_window_limit →
      wait_for_slot s (now :: rest)
        = ((if (s.prune now).short_window_requests.headD 0 + s.short_window_seconds - now + 1 > 0
            then [(s.prune now).short_window_requests.headD 0 + s.short_window_seconds - now + 1]
            else [])
          ++ (wait_for_slot (s.prune now) rest).1, (wait_for_slot (s.prune now) rest).2))
    ∧ (∀ (s : StravaRateLimiter) (now : Int) (rest : List Int) (slotClocks : Nat → List Int)
        (noteClock : Nat → Int) (responses : Nat → HttpResp),
      slotClocks 0 = now :: rest →
      ((s.prune now).daily_requests.length : Int) ≥ s.daily_limit →
      request_json (some s) slotClocks noteClock responses = ([], ReqOutcome.quotaExhausted)
      ∧ ∀ e ∈ (request_json (some s) slotClocks noteClock responses).1,
          ∀ c, e ≠ ReqEvent.http c) := by
  have hpd : ∀ (s : StravaRateLimiter) (now : Int), (s.prune now).daily_limit = s.daily_limit :=
    fun _ _ => rfl
  have hps : ∀ (s : StravaRateLimiter) (now : Int),
      (s.prune now).short_window_limit = s.short_window_limit := fun _ _ => rfl
  have hpw : ∀ (s : StravaRateLimiter) (now : Int),
      (s.prune now).short_window_seconds = s.short_window_seconds := fun _ _ => rfl
  have h1 : ∀ (s : StravaRateLimiter) (now : Int) (rest : List Int),
      ((s.prune now).daily_requests.length : Int) ≥ s.daily_limit →
      wait_for_slot s (now :: rest) = ([], SlotResult.quotaExhausted) := by
    intro s now rest h
    simp only [wait_for_slot, hpd, hps, hpw]
    rw [if_pos h]
  refine ⟨h1, ?_, ?_⟩
  · intro s now rest hd hs
    simp only [wait_for_slot, hpd, hps, hpw]
    rw [if_neg (by omega), if_neg (by omega)]
  · intro s now rest slotClocks noteClock responses hclock h
    have heq : request_json (some s) slotClocks noteClock responses
        = ([], ReqOutcome.quotaExhausted) := by
      show request_json_loop slotClocks noteClock responses (some s) 0 MAX_RETRIES
          = ([], ReqOutcome.quotaExhausted)
      rw [show MAX_RETRIES = 4 + 1 from rfl]
      simp only [request_json_loop]
      rw [hclock, h1 s now rest h]
      rfl
    refine ⟨heq, ?_⟩
    rw [heq]
    intro e he
    cases he

/-- Concrete limiter whose daily queue is at its effective daily limit. -/
def wLimiter : StravaRateLimiter :=
  { short_window_limit := 98, short_window_seconds := 900, daily_limit := 1,
    short_window_requests := [], daily_requests := [5] }

/-- Concrete limiter whose short window is full but daily is not. -/
def wLimiter2 : StravaRateLimiter :=
  { short_window_limit := 1, short_window_seconds := 900, daily_limit := 998,
    short_window_requests := [0], daily_requests := [0] }

/-- Witness for c7_quota_fail_fast: at the daily cap `wait_for_slot`
raises quota-exhausted with no sleeps and `request_json` issues no HTTP
call; with only the short window full it sleeps 896 seconds (oldest entry
0 + window 900 − now 5 + grace 1) and rechecks. -/
theorem c7_quota_fail_fast_witness :
    wait_for_slot wLimiter [6] = ([], SlotResult.quotaExhausted)
    ∧ request_json (some wLimiter) (fun _ => [6]) (fun _ => 0) (fun _ => HttpResp.status 200)
        = ([], ReqOutcome.quotaExhausted)
    ∧ wait_for_slot wLimiter2 [5]
        = ((if (wLimiter2.prune 5).short_window_requests.headD 0
              + wLimiter2.short_window_seconds - 5 + 1 > 0
            then [(wLimiter2.prune 5).short_window_requests.headD 0
              + wLimiter2.short_window_seconds - 5 + 1]
            else [])
          ++ (wait_for_slot (wLimiter2.prune 5) []).1,
          (wait_for_slot (wLimiter2.prune 5) []).2) := by
  refine ⟨c7_quota_fail_fast.1 wLimiter 6 [] (by decide),
    (c7_quota_fail_fast.2.2 wLimiter 6 [] (fun _ => [6]) (fun _ => 0)
      (fun _ => HttpResp.status 200) rfl (by decide)).1,
    c7_quota_fail_fast.2.1 wLimiter2 5 [] (by decide) (by decide)⟩

/-- Response schedule for the C8 counterexample: a 404 on attempt 1, then
a good payload. -/
def wResp : Nat → LfmResp := fun n => if n = 1 then LfmResp.httpErr 404 else LfmResp.okPayload 7

/-- C8 counterexample: lastfm_ingest.py `fetch_page_with_retries` retries
a non-retryable HTTP error.  On a 404 (a 4xx other than 429) it does not
fail on the first attempt: it sleeps once and returns the payload of the
second attempt — the claim's "fails on the first attempt and propagates
to the caller with no retry" is false for this requester. -/
theorem c8_counterexample :
    fetch_page_with_retries 5 1 (fun _ => 0) wResp = ([1], FetchOutcome.ok 7)
    ∧ ([1] : List Int) ≠ []
    ∧ FetchOutcome.ok 7 ≠ FetchOutcome.exhausted := by
  refine ⟨by decide, by decide, by decide⟩

/-- C8 (amended): the two requesters enforce different retry sets, and
neither matches the claim.  strava_pull.py `request_json` retries only on
429 (up to 5 attempts, exponential backoff, then a terminal SystemExit);
every other status >= 400 — including 500-class statuses — propagates on
the first occurrence, and a network error propagates uncaught.
lastfm_ingest.py `fetch_page_with_retries` retries every caught failure —
timeout, connection error, HTTP error of any status (404 included), JSON
decode failure — up to max_retries (default 5) attempts with exponential
backoff plus jitter, then raises a terminal RuntimeError. -/
theorem c8_amended_retry_policy :
    (∀ (slotClocks : Nat → List Int) (noteClock : Nat → Int) (responses : Nat → HttpResp)
        (code : Nat), responses 0 = HttpResp.status code → 400 ≤ code → code ≠ 429 →
      request_json none slotClocks noteClock responses
        = ([ReqEvent.http code], ReqOutcome.httpError code))
    ∧ (∀ (slotClocks : Nat → List Int) (noteClock : Nat → Int) (responses : Nat → HttpResp),
        responses 0 = HttpResp.netError →
      request_json none slotClocks noteClock responses
        = ([ReqEvent.netErr], ReqOutcome.netErrorRaised))
    ∧ (∀ (slotClocks : Nat → List Int) (noteClock : Nat → Int) (responses : Nat → HttpResp),
        (∀ n, responses n = HttpResp.status 429) →
      request_json none slotClocks noteClock responses
        = ([ReqEvent.http 429, ReqEvent.backoffSleep 15, ReqEvent.http 429,
            ReqEvent.backoffSleep 30, ReqEvent.http 429, ReqEvent.backoffSleep 60,
            ReqEvent.http 429, ReqEvent.backoffSleep 120, ReqEvent.http 429,
            ReqEvent.backoffSleep 240], ReqOutcome.retriesExhausted))
    ∧ (∀ (base : Int) (jitter : Nat → Int) (responses : Nat → LfmResp) (v : Nat),
        (∀ u, responses 1 ≠ LfmResp.okPayload u) → responses 2 = LfmResp.okPayload v →
      fetch_page_with_retries 5 base jitter responses
        = ([base * 2 ^ 0 + jitter 1], FetchOutcome.ok v))
    ∧ (∀ (base : Int) (jitter : Nat → Int) (responses : Nat → LfmResp),
        (∀ n, responses n = LfmResp.timeout) →
      fetch_page_with_retries 5 base jitter responses
        = ([base * 2 ^ 0 + jitter 1, base * 2 ^ 1 + jitter 2, base * 2 ^ 2 + jitter 3,
            base * 2 ^ 3 + jitter 4], FetchOutcome.exhausted)) := by
  refine ⟨?_, ?_, ?_, ?_, ?_⟩
  · intro slotClocks noteClock responses code h0 hge hne
    show request_json_loop slotClocks noteClock responses none 0 MAX_RETRIES
        = ([ReqEvent.http code], ReqOutcome.httpError code)
    rw [show MAX_RETRIES = 4 + 1 from rfl]
    simp only [request_json_loop, h0]
    rw [if_neg hne, if_pos hge]
  · intro slotClocks noteClock responses h0
    show request_json_loop slotClocks noteClock responses none 0 MAX_RETRIES
        = ([ReqEvent.netErr], ReqOutcome.netErrorRaised)
    rw [show MAX_RETRIES = 4 + 1 from rfl]
    simp only [request_json_loop, h0]
  · intro slotClocks noteClock responses hall
    show request_json_loop slotClocks noteClock responses none 0 MAX_RETRIES
        = _
    rw [show MAX_RETRIES = 4 + 1 from rfl]
    simp only [request_json_loop, hall, BASE_DELAY]
    norm_num
  · intro base jitter responses v hno hok
    show fetch_page_go base jitter responses 1 5 = ([base * 2 ^ 0 + jitter 1], FetchOutcome.ok v)
    rcases h1 : responses 1 with _ | _ | c | _ | u
    · simp [fetch_page_go, h1, hok]
    · simp [fetch_page_go, h1, hok]
    · simp [fetch_page_go, h1, hok]
    · simp [fetch_page_go, h1, hok]
    · exact absurd h1 (hno u)
  · intro base jitter responses hall
    show fetch_page_go base jitter responses 1 5
        = ([base * 2 ^ 0 + jitter 1, base * 2 ^ 1 + jitter 2, base * 2 ^ 2 + jitter 3,
            base * 2 ^ 3 + jitter 4], FetchOutcome.exhausted)
    simp only [fetch_page_go, hall]
    norm_num

/-- Witness for c8_amended_retry_policy at concrete schedules: a 500
propagates from `request_json` on the first attempt; a network error
propagates; five 429s exhaust the retries; `fetch_page_with_retries`
retries one failure then succeeds, and exhausts after five timeouts. -/
theorem c8_amended_retry_policy_witness :
    request_json none (fun _ => []) (fun _ => 0) (fun _ => HttpResp.status 500)
        = ([ReqEvent.http 500], ReqOutcome.httpError 500)
    ∧ request_json none (fun _ => []) (fun _ => 0) (fun _ => HttpResp.netError)
        = ([ReqEvent.netErr], ReqOutcome.netErrorRaised)
    ∧ request_json none (fun _ => []) (fun _ => 0) (fun _ => HttpResp.status 429)
        = ([ReqEvent.http 429, ReqEvent.backoffSleep 15, ReqEvent.http 429,
            ReqEvent.backoffSleep 30, ReqEvent.http 429, ReqEvent.backoffSleep 60,
            ReqEvent.http 429, ReqEvent.backoffSleep 120, ReqEvent.http 429,
            ReqEvent.backoffSleep 240], ReqOutcome.retriesExhausted)
    ∧ fetch_page_with_retries 5 1 (fun _ => 0) wResp = ([1 * 2 ^ 0 + 0], FetchOutcome.ok 7)
    ∧ fetch_page_with_retries 5 1 (fun _ => 0) (fun _ => LfmResp.timeout)
        = ([1 * 2 ^ 0 + 0, 1 * 2 ^ 1 + 0, 1 * 2 ^ 2 + 0, 1 * 2 ^ 3 + 0],
           FetchOutcome.exhausted) := by
  refine ⟨c8_amended_retry_policy.1 (fun _ => []) (fun _ => 0) (fun _ => HttpResp.status 500)
      500 rfl (by decide) (by decide),
    c8_amended_retry_policy.2.1 (fun _ => []) (fun _ => 0) (fun _ => HttpResp.netError) rfl,
    c8_amended_retry_policy.2.2.1 (fun _ => []) (fun _ => 0) (fun _ => HttpResp.status 429)
      (fun _ => rfl),
    c8_amended_retry_policy.2.2.2.1 1 (fun _ => 0) wResp 7 (by intro u; simp [wResp]) (by decide),
    c8_amended_retry_policy.2.2.2.2 1 (fun _ => 0) (fun _ => LfmResp.timeout) (fun _ => rfl)⟩

/-- A request-timestamp queue is in non-decreasing time order. -/
def SortedQueue (l : List Int) : Prop := l.Chain' (· ≤ ·)

theorem sortedQueue_append_last (l : List Int) (now : Int)
    (hs : SortedQueue l) (hle : ∀ t ∈ l, t ≤ now) : SortedQueue (l ++ [now]) := by
  rw [SortedQueue, List.chain'_append]
  refine ⟨hs, List.chain'_singleton _, ?_⟩
  intro x hx y hy
  have hyn : now = y := by simpa using hy
  subst hyn
  exact hle x (List.mem_of_mem_getLast? hx)

theorem sortedQueue_pruneQueue (window now : Int) (q : List Int) (hs : SortedQueue q) :
    SortedQueue (pruneQueue window now q) :=
  List.Chain'.sublist hs (List.dropWhile_sublist _)

theorem pruneQueue_within (window now : Int) (q : List Int) (hs : SortedQueue q) :
    ∀ t ∈ pruneQueue window now q, now - t < window := by
  induction q with
  | nil =>
    intro t ht
    cases ht
  | cons x xs ih =>
    by_cases hx : now - x ≥ window
    · rw [show pruneQueue window now (x :: xs) = pruneQueue window now xs by
        simp [pruneQueue, List.dropWhile_cons, hx]]
      exact ih (List.chain'_cons'.mp hs).2
    · rw [show pruneQueue window now (x :: xs) = x :: xs by
        simp [pruneQueue, List.dropWhile_cons, hx]]
      intro t ht
      rcases List.mem_cons.mp ht with rfl | ht
      · omega
      · have hpw := List.chain'_iff_pairwise.mp hs
        have hxt : x ≤ t := (List.pairwise_cons.mp hpw).1 t ht
        omega

theorem pruneQueue_filter_within (window now : Int) (q : List Int) (hs : SortedQueue q) :
    ((pruneQueue window now q).filter (fun t => now - t < window)).length
      = (pruneQueue window now q).length := by
  rw [List.filter_eq_self.mpr]
  intro t ht
  exact decide_eq_true (pruneQueue_within window now q hs t ht)

/-- C9: the limiter's invariants.  The effective limits are the
configured limits minus the safety margin, floored at 1; both queues
start empty; appending the current time (`note_request`) and pruning
keep the queues in non-decreasing time order; and whenever
`wait_for_slot` returns normally, the number of remaining timestamps
inside the short window is strictly below the effective short-window
limit and the number inside the 24-hour window is strictly below the
effective daily limit. -/
theorem c9_rate_limiter_invariants :
    (∀ a w d m : Int,
      (StravaRateLimiter.init a w d m).short_window_limit = max 1 (a - m)
      ∧ (StravaRateLimiter.init a w d m).daily_limit = max 1 (d - m)
      ∧ (StravaRateLimiter.init a w d m).short_window_requests = []
      ∧ (StravaRateLimiter.init a w d m).daily_requests = [])
    ∧ (∀ (s : StravaRateLimiter) (now : Int),
      SortedQueue s.short_window_requests → SortedQueue s.daily_requests →
      (∀ t ∈ s.short_window_requests, t ≤ now) → (∀ t ∈ s.daily_requests, t ≤ now) →
      SortedQueue (note_request s now).short_window_requests
      ∧ SortedQueue (note_request s now).daily_requests)
    ∧ (∀ (s : StravaRateLimiter) (now : Int),
      SortedQueue s.short_window_requests → SortedQueue s.daily_requests →
      SortedQueue (s.prune now).short_window_requests
      ∧ SortedQueue (s.prune now).daily_requests)
    ∧ (∀ (s : StravaRateLimiter) (clocks : List Int) (s' : StravaRateLimiter),
      SortedQueue s.short_window_requests → SortedQueue s.daily_requests →
      (wait_for_slot s clocks).2 = SlotResult.ok s' →
      ∃ now ∈ clocks,
        ((s'.short_window_requests.filter
            (fun t => now - t < s.short_window_seconds)).length : Int) < s.short_window_limit
        ∧ ((s'.daily_requests.filter (fun t => now - t < 24 * 60 * 60)).length : Int)
            < s.daily_limit
        ∧ SortedQueue s'.short_window_requests ∧ SortedQueue s'.daily_requests) := by
  refine ⟨fun a w d m => ⟨rfl, rfl, rfl, rfl⟩, ?_, ?_, ?_⟩
  · intro s now hss hsd hls hld
    exact ⟨sortedQueue_append_last _ now hss hls, sortedQueue_append_last _ now hsd hld⟩
  · intro s now hss hsd
    exact ⟨sortedQueue_pruneQueue _ now _ hss, sortedQueue_pruneQueue _ now _ hsd⟩
  · intro s clocks
    induction clocks generalizing s with
    | nil =>
      intro s' _ _ h
      cases h
    | cons now rest ih =>
      intro s' hss hsd h
      have hss' : SortedQueue (s.prune now).short_window_requests :=
        sortedQueue_pruneQueue _ now _ hss
      have hsd' : SortedQueue (s.prune now).daily_requests :=
        sortedQueue_pruneQueue _ now _ hsd
      by_cases hd : (((s.prune now).daily_requests.length : Int) ≥ (s.prune now).daily_limit)
      · simp only [wait_for_slot] at h
        rw [if_pos hd] at h
        cases h
      · by_cases hshort : (((s.prune now).short_window_requests.length : Int)
            < (s.prune now).short_window_limit)
        · simp only [wait_for_slot] at h
          rw [if_neg hd, if_pos hshort] at h
          have hs' : SlotResult.ok (s.prune now) = SlotResult.ok s' := h
          have hsse : s' = s.prune now := (SlotResult.ok.injEq _ _ ▸ hs').symm
          subst hsse
          refine ⟨now, List.mem_cons_self _ _, ?_, ?_, hss', hsd'⟩
          · have := pruneQueue_filter_within s.short_window_seconds now
              s.short_window_requests hss
            rw [show (s.prune now).short_window_requests
                = pruneQueue s.short_window_seconds now s.short_window_requests from rfl]
            rw [this]
            exact hshort
          · have hflt := pruneQueue_filter_within (24 * 60 * 60) now s.daily_requests hsd
            rw [show (s.prune now).daily_requests
                = pruneQueue (24 * 60 * 60) now s.daily_requests from rfl]
            rw [hflt]
            have hdl : (s.prune now).daily_limit = s.daily_limit := rfl
            have hdq : (s.prune now).daily_requests
                = pruneQueue (24 * 60 * 60) now s.daily_requests := rfl
            rw [hdl, hdq] at hd
            omega
        · simp only [wait_for_slot] at h
          rw [if_neg hd, if_neg hshort] at h
          have h' : (wait_for_slot (s.prune now) rest).2 = SlotResult.ok s' := h
          rcases ih (s.prune now) s' hss' hsd' h' with ⟨now', hmem, hc1, hc2, hc3, hc4⟩
          exact ⟨now', List.mem_cons.mpr (.inr hmem), hc1, hc2, hc3, hc4⟩

/-- Sorted two-entry limiter used by the C9 witness. -/
def wLimiter3 : StravaRateLimiter :=
  { short_window_limit := 98, short_window_seconds := 900, daily_limit := 998,
    short_window_requests := [3, 4], daily_requests := [3, 4] }

/-- Witness for c9_rate_limiter_invariants: concrete limits, a
note_request and a prune on a sorted queue, and a granted slot whose
remaining in-window counts are below both effective limits. -/
theorem c9_rate_limiter_invariants_witness :
    ((StravaRateLimiter.init 100 900 1000 2).short_window_limit = max 1 (100 - 2)
      ∧ (StravaRateLimiter.init 100 900 1000 2).daily_limit = max 1 (1000 - 2)
      ∧ (StravaRateLimiter.init 100 900 1000 2).short_window_requests = []
      ∧ (StravaRateLimiter.init 100 900 1000 2).daily_requests = [])
    ∧ (SortedQueue (note_request wLimiter3 9).short_window_requests
      ∧ SortedQueue (note_request wLimiter3 9).daily_requests)
    ∧ (SortedQueue (wLimiter3.prune 9).short_window_requests
      ∧ SortedQueue (wLimiter3.prune 9).daily_requests)
    ∧ (∃ now ∈ [9],
        ((wLimiter3.prune 9).short_window_requests.filter
            (fun t => now - t < wLimiter3.short_window_seconds)).length
          < wLimiter3.short_window_limit
        ∧ (((wLimiter3.prune 9).daily_requests.filter
            (fun t => now - t < 24 * 60 * 60)).length : Int) < wLimiter3.daily_limit
        ∧ SortedQueue (wLimiter3.prune 9).short_window_requests
        ∧ SortedQueue (wLimiter3.prune 9).daily_requests) := by
  refine ⟨c9_rate_limiter_invariants.1 100 900 1000 2,
    c9_rate_limiter_invariants.2.1 wLimiter3 9 ?_ ?_ ?_ ?_,
    c9_rate_limiter_invariants.2.2.1 wLimiter3 9 ?_ ?_,
    c9_rate_limiter_invariants.2.2.2 wLimiter3 [9] (wLimiter3.prune 9) ?_ ?_ ?_⟩
  · exact List.chain'_pair.mpr (by decide)
  · exact List.chain'_pair.mpr (by decide)
  · intro t ht
    rcases List.mem_cons.mp ht with rfl | ht
    · decide
    · have : t = 4 := by simpa using ht
      omega
  · intro t ht
    rcases List.mem_cons.mp ht with rfl | ht
    · decide
    · have : t = 4 := by simpa using ht
      omega
  · exact List.chain'_pair.mpr (by decide)
  · exact List.chain'_pair.mpr (by decide)
  · exact List.chain'_pair.mpr (by decide)
  · exact List.chain'_pair.mpr (by decide)
  · decide

/-- A raw Last.fm API track item, with the fields lastfm_ingest.py
`normalize` (lines 422-444) reads: the synthetic now-playing marker
(`item["@attr"]["nowplaying"] == "true"`), the nested `date.uts`, and
the text fields. -/
structure RawTrack where
  nowplaying : Bool
  date_uts : Option Int
  artist : Option String
  name : Option String
  album : Option String
  mbid : Option String
  deriving DecidableEq

/-- lastfm_ingest.py `normalize` (lines 422-444; the source name clashes
with a Mathlib declaration): skip the synthetic now-playing sentinel,
skip items without a `date.uts`, and build the normalized row (album and
mbid fall through Python's `or None` on empty strings). -/
def normalizeTracks (items : List RawTrack) : List Row :=
  items.filterMap fun it =>
    if it.nowplaying then none
    else
      it.date_uts.map fun n =>
        { uts := UtsField.val n, date_uts := UtsField.absent, artist := it.artist,
          track := it.name, name := none, album := orElseText it.album none,
          mbid := orElseText it.mbid none }

/-- One page of the remote API as the paginator sees it: the track list
and the reported total number of pages. -/
structure PageData where
  tracks : List RawTrack
  totalPages : Nat
  deriving DecidableEq

/-- Persisted effects of a run, in order: each fetch (which persists
nothing), the raw JSONL write, the parquet append, and the state-file
(watermark) write. -/
inductive RunEvent
  | fetchPage (page : Nat)
  | writeRaw (rows : List Row)
  | writeParquet (rows : List Row)
  | writeState (uts : Int)
  deriving DecidableEq

/-- The page loop of lastfm_ingest.py `run` (lines 543-575): fetch page,
normalize; stop on an empty normalized page; extend the in-memory
accumulator; stop when page >= totalPages; else advance to the next
page.  Fuel bounds the loop (the real loop can only be unbounded if the
API keeps growing totalPages); every claim instantiates it with a fuel
larger than the page count. -/
def run_loop (api : Nat → PageData) : Nat → Nat → List Row → List RunEvent × List Row
  | _, 0, acc => ([], acc)
  | page, fuel + 1, acc =>
    let pd := api page
    let rows := normalizeTracks pd.tracks
    if rows.isEmpty then ([RunEvent.fetchPage page], acc)
    else
      let acc' := acc ++ rows
      if page ≥ pd.totalPages then ([RunEvent.fetchPage page], acc')
      else
        let rest := run_loop api (page + 1) fuel acc'
        (RunEvent.fetchPage page :: rest.1, rest.2)

/-- lastfm_ingest.py `run` (lines 543-588) as its trace of persisted
effects: the page loop accumulates rows only in memory; if nothing was
accumulated the run returns with no writes; otherwise it writes the raw
JSONL file, appends the parquet partitions of the deduplicated batch,
and finally saves the max uts as the new watermark — all strictly after
the last page was fetched. -/
def run_events (api : Nat → PageData) (fuel : Nat) : List RunEvent :=
  let lr := run_loop api 1 fuel []
  if lr.2.isEmpty then lr.1
  else
    lr.1 ++ [RunEvent.writeRaw lr.2, RunEvent.writeParquet (drop_duplicates lr.2),
      RunEvent.writeState (maxUtsList ((drop_duplicates lr.2).map utsVal))]

/-- The state a run persists across invocations: raw JSONL files,
parquet partition files, and the watermark state file. -/
structure PersistedState where
  rawFiles : List (List Row)
  parquetFiles : List (List Row)
  state_uts : Option Int
  deriving DecidableEq

/-- Effect of one run event on persisted state (a fetch persists
nothing). -/
def applyRunEvent (st : PersistedState) : RunEvent → PersistedState
  | RunEvent.fetchPage _ => st
  | RunEvent.writeRaw rows => { st with rawFiles := st.rawFiles ++ [rows] }
  | RunEvent.writeParquet rows => { st with parquetFiles := st.parquetFiles ++ [rows] }
  | RunEvent.writeState u => { st with state_uts := some u }

/-- Fold a trace of run events over persisted state. -/
def applyRunEvents (st : PersistedState) (evs : List RunEvent) : PersistedState :=
  evs.foldl applyRunEvent st

/-- Whether an event persists anything. -/
def isWriteEvent : RunEvent → Bool
  | RunEvent.fetchPage _ => false
  | _ => true

/-- Formalization of the claim's wording over traces: immediately after
every fetched page (before anything else happens, in particular before
the next fetch) some state is persisted. -/
def segmentHasWrite : List RunEvent → Bool
  | [] => false
  | RunEvent.fetchPage _ :: _ => false
  | _ :: _ => true

/-- The claim's property: every fetched page is followed by a persisted
write before the next page is fetched (and after the final page too). -/
def checkpointAfterEveryPage : List RunEvent → Bool
  | [] => true
  | RunEvent.fetchPage _ :: rest => segmentHasWrite rest && checkpointAfterEveryPage rest
  | _ :: rest => checkpointAfterEveryPage rest

/-- Concrete two-page API for the C2 counterexample. -/
def wTrack1 : RawTrack :=
  { nowplaying := false, date_uts := some 10, artist := some "a", name := some "t",
    album := none, mbid := none }

/-- Second page's track. -/
def wTrack2 : RawTrack :=
  { nowplaying := false, date_uts := some 20, artist := some "a", name := some "u",
    album := none, mbid := none }

/-- Two pages of one track each, totalPages = 2. -/
def wApi : Nat → PageData := fun page =>
  if page = 1 then { tracks := [wTrack1], totalPages := 2 }
  else if page = 2 then { tracks := [wTrack2], totalPages := 2 }
  else { tracks := [], totalPages := 2 }

/-- Normalized row of wTrack1. -/
def wNorm1 : Row :=
  { uts := UtsField.val 10, date_uts := UtsField.absent, artist := some "a",
    track := some "t", name := none, album := none, mbid := none }

/-- Normalized row of wTrack2. -/
def wNorm2 : Row :=
  { uts := UtsField.val 20, date_uts := UtsField.absent, artist := some "a",
    track := some "u", name := none, album := none, mbid := none }

/-- C2 counterexample: the run persists no per-page checkpoint.  For a
two-page API the trace is fetch, fetch, then the three end-of-run
writes; no write separates the two fetches, so "after every successfully
fetched page the Paginator persists an updated Checkpoint" is false —
there is no Checkpoint entity anywhere in the sources. -/
theorem c2_counterexample :
    run_events wApi 5
      = [RunEvent.fetchPage 1, RunEvent.fetchPage 2,
         RunEvent.writeRaw [wNorm1, wNorm2], RunEvent.writeParquet [wNorm1, wNorm2],
         RunEvent.writeState 20]
    ∧ checkpointAfterEveryPage (run_events wApi 5) = false := by
  refine ⟨by decide, by decide⟩

/-- C2 (amended): the run keeps no per-page checkpoint at all — every
event the page loop emits is a bare fetch and persists nothing — so a
run killed anywhere inside pagination leaves the persisted state (raw
files, parquet partitions, watermark) exactly as it was, and a
subsequent invocation, which therefore resolves the same cursor and
re-fetches from page 1, produces exactly the persisted state an
uninterrupted run would have produced (the killed prefix contributes
nothing). -/
theorem c2_amended_no_checkpoint_resume :
    (∀ (api : Nat → PageData) (page fuel : Nat) (acc : List Row),
      ∀ e ∈ (run_loop api page fuel acc).1, isWriteEvent e = false)
    ∧ (∀ (api : Nat → PageData) (page fuel : Nat) (acc : List Row) (j : Nat)
        (st : PersistedState),
      applyRunEvents st (List.take j (run_loop api page fuel acc).1) = st)
    ∧ (∀ (api : Nat → PageData) (fuel j : Nat) (st : PersistedState),
      applyRunEvents st (List.take j (run_loop api 1 fuel []).1 ++ run_events api fuel)
        = applyRunEvents st (run_events api fuel)) := by
  have hloop : ∀ (api : Nat → PageData) (fuel page : Nat) (acc : List Row),
      ∀ e ∈ (run_loop api page fuel acc).1, isWriteEvent e = false := by
    intro api fuel
    induction fuel with
    | zero =>
      intro page acc e he
      cases he
    | succ n ih =>
      intro page acc e he
      simp only [run_loop] at he
      by_cases h1 : (normalizeTracks (api page).tracks).isEmpty
      · rw [if_pos h1] at he
        have : e = RunEvent.fetchPage page := by simpa using he
        rw [this]
        rfl
      · rw [if_neg h1] at he
        by_cases h2 : page ≥ (api page).totalPages
        · rw [if_pos h2] at he
          have : e = RunEvent.fetchPage page := by simpa using he
          rw [this]
          rfl
        · rw [if_neg h2] at he
          rcases List.mem_cons.mp he with rfl | he'
          · rfl
          · exact ih (page + 1) _ e he'
  have happly : ∀ (evs : List RunEvent) (st : PersistedState),
      (∀ e ∈ evs, isWriteEvent e = false) → applyRunEvents st evs = st := by
    intro evs
    induction evs with
    | nil => intro st _; rfl
    | cons e rest ih =>
      intro st hall
      have he := hall e (List.mem_cons_self _ _)
      cases e with
      | fetchPage p =>
        simp only [applyRunEvents, List.foldl_cons]
        exact ih st (fun x hx => hall x (List.mem_cons.mpr (.inr hx)))
      | writeRaw rows => cases he
      | writeParquet rows => cases he
      | writeState u => cases he
  have htake : ∀ (api : Nat → PageData) (page fuel : Nat) (acc : List Row) (j : Nat)
      (st : PersistedState),
      applyRunEvents st (List.take j (run_loop api page fuel acc).1) = st := by
    intro api page fuel acc j st
    apply happly
    intro e he
    exact hloop api fuel page acc e (List.mem_of_mem_take he)
  refine ⟨fun api page fuel acc => hloop api fuel page acc, htake, ?_⟩
  intro api fuel j st
  show (List.take j (run_loop api 1 fuel []).1 ++ run_events api fuel).foldl applyRunEvent st
      = applyRunEvents st (run_events api fuel)
  rw [List.foldl_append]
  have := htake api 1 fuel [] j st
  simp only [applyRunEvents] at this
  rw [this]
  rfl

/-- Witness for c2_amended_no_checkpoint_resume on the concrete two-page
API: the first loop event persists nothing, a killed prefix leaves the
empty persisted state unchanged, and killed-then-complete equals
uninterrupted. -/
theorem c2_amended_no_checkpoint_resume_witness :
    isWriteEvent (RunEvent.fetchPage 1) = false
    ∧ applyRunEvents ⟨[], [], none⟩ (List.take 1 (run_loop wApi 1 5 []).1) = ⟨[], [], none⟩
    ∧ applyRunEvents ⟨[], [], none⟩
        (List.take 1 (run_loop wApi 1 5 []).1 ++ run_events wApi 5)
      = applyRunEvents ⟨[], [], none⟩ (run_events wApi 5) := by
  refine ⟨c2_amended_no_checkpoint_resume.1 wApi 1 5 [] (RunEvent.fetchPage 1) (by decide),
    c2_amended_no_checkpoint_resume.2.1 wApi 1 5 [] 1 ⟨[], [], none⟩,
    c2_amended_no_checkpoint_resume.2.2 wApi 5 1 ⟨[], [], none⟩⟩
